import Mathlib

set_option maxHeartbeats 1000000

/-!
Shallow embedding of the day12 grid-to-graph shortest-path engine
(`src/day12/src/main.rs`) and proofs about it.  Machine integers (`usize`,
`u8`) are modelled as `Nat`; `usize::MAX`, used by `shortest_path` as the
"infinite" distance, is the explicit constant `usizeMax`.  The `BinaryHeap`
is modelled as a list together with a pop operation that removes a greatest
element under the reversed `State` ordering, and the `while` loop is modelled
with explicit fuel (the fuel supplied by `shortest_path` is proved sufficient).
-/

namespace Day12

/-- Value of `usize::MAX` on a 64-bit target; plays the role of infinity in
the distance table of `shortest_path`. -/
def usizeMax : Nat := 2 ^ 64 - 1

/-- Mirrors `struct Location`: a dense node identifier plus the originating
(row, column) grid coordinate. -/
structure Location where
  node_idx : Nat
  grid_idx : Nat × Nat
deriving DecidableEq, Repr

/-- Mirrors `struct Edge`: a directed edge to `node` with the given `cost`. -/
structure Edge where
  node : Nat
  cost : Nat
deriving DecidableEq, Repr

/-- Mirrors `struct State`: a (tentative cost, node) pair stored in the
priority queue. -/
structure State where
  cost : Nat
  position : Nat
deriving DecidableEq, Repr

/-- Rust's `impl Ord for State` compares reversed on cost and then forward on
position, so that the max-`BinaryHeap` yields minimum costs first.
`stateGe a b` says `a` has at least the priority of `b`: strictly smaller
cost, or equal cost and at least as large a position. -/
def stateGe (a b : State) : Prop :=
  a.cost < b.cost ∨ (a.cost = b.cost ∧ b.position ≤ a.position)

instance (a b : State) : Decidable (stateGe a b) := by
  unfold stateGe
  exact inferInstance

/-- Models `BinaryHeap::pop`: removes and returns a greatest element under the
`State` ordering, i.e. one of minimum cost (ties broken towards larger
position). -/
def popMax : List State → Option (State × List State)
  | [] => none
  | s :: ss =>
    match popMax ss with
    | none => some (s, [])
    | some (m, rest) => if stateGe m s then some (m, s :: rest) else some (s, ss)

/-- Relaxation loop of `shortest_path` with the `usize` sum `cost + edge.cost`
idealized as unbounded `Nat`, and out-of-range indexing (a panic in Rust)
modelled by `getD`, whose default `0` makes the comparison false.  This
version is an idealization: the faithful embedding of the loop body is
`relaxAllChk` below, which panics (returns `none`) when the sum overflows a
`usize` or the neighbor index is out of range; `relaxAllChk_eq_relaxAll`
proves the two agree on every call on which the program does not panic, which
covers all runs with in-bounds edges whose sums stay below `usize::MAX` (in
particular every unit-cost graph a grid produces). -/
def relaxAll (cost : Nat) : List Nat → List State → List Edge → List Nat × List State
  | dist, heap, [] => (dist, heap)
  | dist, heap, e :: es =>
    if cost + e.cost < dist.getD e.node 0 then
      relaxAll cost (dist.set e.node (cost + e.cost)) (⟨cost + e.cost, e.node⟩ :: heap) es
    else
      relaxAll cost dist heap es

/-- Fuel-indexed main loop of `shortest_path`.  `none` means the fuel ran out
(the fuel supplied by `shortest_path` is proved sufficient, so this never
reaches the caller), `some none` means the queue emptied without reaching
`target` ("no path"), and `some (some c)` means `target` was popped with cost
`c`. -/
def sp_go (adj : List (List Edge)) (target : Nat) :
    Nat → List Nat → List State → Option (Option Nat)
  | 0, _, _ => none
  | fuel + 1, dist, heap =>
    match popMax heap with
    | none => some none
    | some (s, heap1) =>
      if s.position = target then some (some s.cost)
      else if dist.getD s.position 0 < s.cost then sp_go adj target fuel dist heap1
      else
        let p := relaxAll s.cost dist heap1 (adj.getD s.position [])
        sp_go adj target fuel p.1 p.2

/-- Initial state of `shortest_path`: every node's distance is `usize::MAX`
except the start at `0`, and the queue holds the single entry `(0, start)`. -/
def initState (adj : List (List Edge)) (start : Nat) : List Nat × List State :=
  ((List.replicate adj.length usizeMax).set start 0, [⟨0, start⟩])

/-- The search with the idealized (`Nat`-summing) relaxation `relaxAll`.  The
supplied fuel, one more than the sum of all distance-table entries plus the
queue length, strictly dominates the loop measure, so the loop always
terminates on its own before the fuel is spent.  The faithful embedding of
`fn shortest_path`, with `usize` overflow and edge indexing checked, is
`shortest_path_chk` below; `shortest_path_chk_agree` proves this version
returns the same answer on every run on which the program does not panic. -/
def shortest_path (adj : List (List Edge)) (start target : Nat) : Option Nat :=
  (sp_go adj target ((initState adj start).1.sum + (initState adj start).2.length + 1)
    (initState adj start).1 (initState adj start).2).getD none

/-- Single iteration of the `shortest_path` loop viewed as a transition on the
(distance table, queue) state; `none` when the loop exits this iteration
(queue empty, or the target is popped and the function returns). -/
def stepFn (adj : List (List Edge)) (target : Nat) (st : List Nat × List State) :
    Option (List Nat × List State) :=
  match popMax st.2 with
  | none => none
  | some (s, heap1) =>
    if s.position = target then none
    else if st.1.getD s.position 0 < s.cost then some (st.1, heap1)
    else some (relaxAll s.cost st.1 heap1 (adj.getD s.position []))

/-! ### The overflow-checked model of the search

The Rust source adds `cost + edge.cost` in `usize` and indexes the distance
table with the edge's target: the addition panics in a debug build when the
mathematical sum exceeds `usize::MAX` (a release build wraps and then stores
a wrong small distance), and the indexing panics when the edge is out of
bounds.  The definitions below embed the loop with both hazards made
explicit, a panic modelled as `none`/`SPResult.panicked`; the pure-`Nat`
versions above agree with them on every run that does not panic. -/

/-- Checked `usize` addition: `none` models the arithmetic-overflow panic of
`cost + edge.cost`. -/
def checkedAdd (a b : Nat) : Option Nat :=
  if a + b ≤ usizeMax then some (a + b) else none

/-- Faithful relaxation loop: for each outgoing edge the tentative cost is
summed with a checked `usize` addition, the neighbor's distance entry is read
with checked indexing, and on improvement the pair is pushed and the table
updated; `none` models the panic of either hazard. -/
def relaxAllChk (cost : Nat) : List Nat → List State → List Edge →
    Option (List Nat × List State)
  | dist, heap, [] => some (dist, heap)
  | dist, heap, e :: es =>
    match checkedAdd cost e.cost with
    | none => none
    | some nc =>
      match dist[e.node]? with
      | none => none
      | some dv =>
        if nc < dv then
          relaxAllChk cost (dist.set e.node nc) (⟨nc, e.node⟩ :: heap) es
        else
          relaxAllChk cost dist heap es

/-- Outcome of one `shortest_path` run in the checked model: the target was
popped with the given cost, the queue emptied ("no path"), or the run
panicked on an overflow or out-of-bounds edge. -/
inductive SPResult where
  | found (c : Nat)
  | nopath
  | panicked
deriving DecidableEq, Repr

/-- Fuel-indexed main loop over the checked relaxation; `none` means the fuel
ran out (the fuel supplied by `shortest_path_chk` is proved sufficient). -/
def sp_go_chk (adj : List (List Edge)) (target : Nat) :
    Nat → List Nat → List State → Option SPResult
  | 0, _, _ => none
  | fuel + 1, dist, heap =>
    match popMax heap with
    | none => some .nopath
    | some (s, heap1) =>
      if s.position = target then some (.found s.cost)
      else if dist.getD s.position 0 < s.cost then sp_go_chk adj target fuel dist heap1
      else
        match relaxAllChk s.cost dist heap1 (adj.getD s.position []) with
        | none => some .panicked
        | some p => sp_go_chk adj target fuel p.1 p.2

/-- Faithful embedding of `fn shortest_path`: same initial state and fuel as
`shortest_path`, but relaxation sums are checked, so a run that overflows a
`usize` (or follows an out-of-bounds edge) reports `SPResult.panicked`
instead of silently skipping the update. -/
def shortest_path_chk (adj : List (List Edge)) (start target : Nat) : SPResult :=
  (sp_go_chk adj target
    ((initState adj start).1.sum + (initState adj start).2.length + 1)
    (initState adj start).1 (initState adj start).2).getD .panicked

/-! ### Small list helpers -/

theorem getD_set_self {l : List Nat} {i : Nat} (h : i < l.length) (a : Nat) :
    (l.set i a).getD i 0 = a := by
  rw [List.getD_eq_getElem _ _ (by simpa using h)]
  simp [List.getElem_set_self]

theorem getD_set_ne {l : List Nat} {i j : Nat} (h : i ≠ j) (a : Nat) :
    (l.set i a).getD j 0 = l.getD j 0 := by
  by_cases hj : j < l.length
  · rw [List.getD_eq_getElem _ _ (by simpa using hj), List.getD_eq_getElem _ _ hj]
    exact List.getElem_set_ne h _
  · rw [List.getD_eq_default _ _ (by simpa using Nat.le_of_not_lt hj),
      List.getD_eq_default _ _ (Nat.le_of_not_lt hj)]

theorem lt_length_of_lt_getD {l : List Nat} {i a : Nat} (h : a < l.getD i 0) :
    i < l.length := by
  by_contra hi
  rw [List.getD_eq_default _ _ (Nat.le_of_not_lt hi)] at h
  exact Nat.not_lt_zero a h

theorem sum_set_getD {l : List Nat} {i : Nat} (h : i < l.length) (a : Nat) :
    (l.set i a).sum + l.getD i 0 = l.sum + a := by
  induction l generalizing i with
  | nil => simp at h
  | cons x xs ih =>
    cases i with
    | zero => simp [List.getD_cons_zero, Nat.add_comm, Nat.add_left_comm]
    | succ j =>
      have hj : j < xs.length := by simpa using h
      simp only [List.set_cons_succ, List.sum_cons, List.getD_cons_succ]
      have := ih hj
      omega

theorem mem_of_perm_cons {x y : State} {l r : List State}
    (hp : l.Perm (x :: r)) (hy : y ∈ l) (hne : y ≠ x) : y ∈ r := by
  have := hp.mem_iff.mp hy
  simp only [List.mem_cons] at this
  exact this.resolve_left hne

/-! ### Lemmas about `popMax` -/

theorem popMax_cons (s : State) (ss : List State) :
    ∃ m rest, popMax (s :: ss) = some (m, rest) := by
  cases h : popMax ss with
  | none => exact ⟨s, [], by simp [popMax, h]⟩
  | some p =>
    by_cases hg : stateGe p.1 s
    · exact ⟨p.1, s :: p.2, by simp [popMax, h, hg]⟩
    · exact ⟨s, ss, by simp [popMax, h, hg]⟩

theorem popMax_eq_none {l : List State} (h : popMax l = none) : l = [] := by
  cases l with
  | nil => rfl
  | cons s ss =>
    obtain ⟨m, rest, hm⟩ := popMax_cons s ss
    rw [hm] at h
    cases h

theorem popMax_perm {l : List State} {m : State} {rest : List State}
    (h : popMax l = some (m, rest)) : l.Perm (m :: rest) := by
  induction l generalizing m rest with
  | nil => cases h
  | cons s ss ih =>
    rw [popMax] at h
    cases hp : popMax ss with
    | none =>
      rw [hp] at h
      simp only [Option.some.injEq, Prod.mk.injEq] at h
      obtain ⟨rfl, rfl⟩ := h
      rw [popMax_eq_none hp]
    | some p =>
      obtain ⟨m', rest'⟩ := p
      rw [hp] at h
      by_cases hg : stateGe m' s
      · simp only [hg, if_pos, Option.some.injEq, Prod.mk.injEq] at h
        obtain ⟨rfl, rfl⟩ := h
        exact ((ih hp).cons s).trans (List.Perm.swap _ _ _)
      · simp only [hg, if_neg, Option.some.injEq, Prod.mk.injEq, not_false_iff] at h
        obtain ⟨rfl, rfl⟩ := h
        exact List.Perm.refl _

theorem cost_le_of_stateGe {a b : State} (h : stateGe a b) : a.cost ≤ b.cost := by
  rcases h with h | ⟨h, _⟩
  · exact Nat.le_of_lt h
  · exact Nat.le_of_eq h

theorem cost_le_of_not_stateGe {a b : State} (h : ¬ stateGe a b) : b.cost ≤ a.cost := by
  unfold stateGe at h
  push_neg at h
  exact h.1

theorem popMax_min {l : List State} {m : State} {rest : List State}
    (h : popMax l = some (m, rest)) : ∀ x ∈ l, m.cost ≤ x.cost := by
  induction l generalizing m rest with
  | nil => cases h
  | cons s ss ih =>
    rw [popMax] at h
    cases hp : popMax ss with
    | none =>
      rw [hp] at h
      simp only [Option.some.injEq, Prod.mk.injEq] at h
      obtain ⟨rfl, rfl⟩ := h
      intro x hx
      rw [popMax_eq_none hp] at hx
      simp only [List.mem_singleton] at hx
      exact hx ▸ Nat.le_refl _
    | some p =>
      obtain ⟨m', rest'⟩ := p
      rw [hp] at h
      by_cases hg : stateGe m' s
      · simp only [hg, if_pos, Option.some.injEq, Prod.mk.injEq] at h
        obtain ⟨rfl, rfl⟩ := h
        intro x hx
        rcases List.mem_cons.mp hx with rfl | hx
        · exact cost_le_of_stateGe hg
        · exact ih hp x hx
      · simp only [hg, if_neg, Option.some.injEq, Prod.mk.injEq, not_false_iff] at h
        obtain ⟨rfl, rfl⟩ := h
        intro x hx
        rcases List.mem_cons.mp hx with rfl | hx
        · exact Nat.le_refl _
        · exact Nat.le_trans (cost_le_of_not_stateGe hg) (ih hp x hx)

/-! ### Lemmas about `relaxAll` -/

theorem set_getD_le {l : List Nat} {i a : Nat} (h : a < l.getD i 0) (v : Nat) :
    (l.set i a).getD v 0 ≤ l.getD v 0 := by
  by_cases hv : i = v
  · subst hv
    rw [getD_set_self (lt_length_of_lt_getD h)]
    exact Nat.le_of_lt h
  · rw [getD_set_ne hv]

theorem relaxAll_length (cost : Nat) (dist : List Nat) (heap : List State) (es : List Edge) :
    (relaxAll cost dist heap es).1.length = dist.length := by
  induction es generalizing dist heap with
  | nil => rfl
  | cons e es ih =>
    rw [relaxAll]
    by_cases h : cost + e.cost < dist.getD e.node 0
    · rw [if_pos h, ih]
      exact List.length_set ..
    · rw [if_neg h]
      exact ih dist heap

theorem relaxAll_dist_le (cost : Nat) (dist : List Nat) (heap : List State) (es : List Edge)
    (v : Nat) : (relaxAll cost dist heap es).1.getD v 0 ≤ dist.getD v 0 := by
  induction es generalizing dist heap with
  | nil => exact Nat.le_refl _
  | cons e es ih =>
    rw [relaxAll]
    by_cases h : cost + e.cost < dist.getD e.node 0
    · rw [if_pos h]
      exact Nat.le_trans (ih _ _) (set_getD_le h v)
    · rw [if_neg h]
      exact ih dist heap

theorem relaxAll_heap_mono (cost : Nat) (dist : List Nat) (heap : List State) (es : List Edge) :
    ∀ x ∈ heap, x ∈ (relaxAll cost dist heap es).2 := by
  induction es generalizing dist heap with
  | nil => exact fun x hx => hx
  | cons e es ih =>
    intro x hx
    rw [relaxAll]
    by_cases h : cost + e.cost < dist.getD e.node 0
    · rw [if_pos h]
      exact ih _ _ x (List.mem_cons_of_mem _ hx)
    · rw [if_neg h]
      exact ih dist heap x hx

theorem relaxAll_heap_new (cost : Nat) (dist : List Nat) (heap : List State) (es : List Edge) :
    ∀ x ∈ (relaxAll cost dist heap es).2,
      x ∈ heap ∨ ∃ e ∈ es, x = ⟨cost + e.cost, e.node⟩ ∧ x.cost < dist.getD e.node 0 := by
  induction es generalizing dist heap with
  | nil => exact fun x hx => Or.inl hx
  | cons e es ih =>
    intro x hx
    rw [relaxAll] at hx
    by_cases h : cost + e.cost < dist.getD e.node 0
    · rw [if_pos h] at hx
      rcases ih _ _ x hx with hmem | ⟨e', he', hx', hlt⟩
      · rcases List.mem_cons.mp hmem with rfl | hmem
        · exact Or.inr ⟨e, List.mem_cons_self .., rfl, h⟩
        · exact Or.inl hmem
      · exact Or.inr ⟨e', List.mem_cons_of_mem _ he',
          hx', Nat.lt_of_lt_of_le hlt (set_getD_le h _)⟩
    · rw [if_neg h] at hx
      rcases ih dist heap x hx with hmem | ⟨e', he', hx', hlt⟩
      · exact Or.inl hmem
      · exact Or.inr ⟨e', List.mem_cons_of_mem _ he', hx', hlt⟩

theorem relaxAll_dist_cases (cost : Nat) (dist : List Nat) (heap : List State) (es : List Edge)
    (v : Nat) :
    (relaxAll cost dist heap es).1.getD v 0 = dist.getD v 0 ∨
      ((relaxAll cost dist heap es).1.getD v 0 < dist.getD v 0 ∧
        (∃ e ∈ es, e.node = v ∧ (relaxAll cost dist heap es).1.getD v 0 = cost + e.cost) ∧
        (⟨(relaxAll cost dist heap es).1.getD v 0, v⟩ : State) ∈
          (relaxAll cost dist heap es).2) := by
  induction es generalizing dist heap with
  | nil => exact Or.inl rfl
  | cons e es ih =>
    rw [relaxAll]
    by_cases h : cost + e.cost < dist.getD e.node 0
    · rw [if_pos h]
      by_cases hv : e.node = v
      · subst hv
        have hset : (dist.set e.node (cost + e.cost)).getD e.node 0 = cost + e.cost :=
          getD_set_self (lt_length_of_lt_getD h) _
        rcases ih (dist.set e.node (cost + e.cost)) (⟨cost + e.cost, e.node⟩ :: heap) with
          heq | ⟨hlt, ⟨e', he', hv', heq'⟩, hmem⟩
        · refine Or.inr ⟨?_, ⟨e, List.mem_cons_self .., rfl, by rw [heq, hset]⟩, ?_⟩
          · rw [heq, hset]
            exact h
          · rw [heq, hset]
            exact relaxAll_heap_mono _ _ _ _ _ (List.mem_cons_self ..)
        · refine Or.inr ⟨?_, ⟨e', List.mem_cons_of_mem _ he', hv', heq'⟩, hmem⟩
          rw [hset] at hlt
          exact Nat.lt_trans hlt h
      · have hset : (dist.set e.node (cost + e.cost)).getD v 0 = dist.getD v 0 :=
          getD_set_ne hv _
        rcases ih (dist.set e.node (cost + e.cost)) (⟨cost + e.cost, e.node⟩ :: heap) with
          heq | ⟨hlt, ⟨e', he', hv', heq'⟩, hmem⟩
        · exact Or.inl (by rw [heq, hset])
        · exact Or.inr ⟨by rw [← hset]; exact hlt,
            ⟨e', List.mem_cons_of_mem _ he', hv', heq'⟩, hmem⟩
    · rw [if_neg h]
      rcases ih dist heap with heq | ⟨hlt, ⟨e', he', hv', heq'⟩, hmem⟩
      · exact Or.inl heq
      · exact Or.inr ⟨hlt, ⟨e', List.mem_cons_of_mem _ he', hv', heq'⟩, hmem⟩

theorem relaxAll_relaxed (cost : Nat) (dist : List Nat) (heap : List State) (es : List Edge) :
    ∀ e ∈ es, e.node < dist.length →
      (relaxAll cost dist heap es).1.getD e.node 0 ≤ cost + e.cost := by
  induction es generalizing dist heap with
  | nil => intro e he; cases he
  | cons e0 es ih =>
    intro e he hnode
    rw [relaxAll]
    by_cases h : cost + e0.cost < dist.getD e0.node 0
    · rw [if_pos h]
      rcases List.mem_cons.mp he with rfl | he
      · calc (relaxAll cost (dist.set e.node (cost + e.cost))
              (⟨cost + e.cost, e.node⟩ :: heap) es).1.getD e.node 0
            ≤ (dist.set e.node (cost + e.cost)).getD e.node 0 := relaxAll_dist_le ..
          _ = cost + e.cost := getD_set_self hnode _
      · exact ih _ _ e he (by simpa using hnode)
    · rw [if_neg h]
      rcases List.mem_cons.mp he with rfl | he
      · exact Nat.le_trans (relaxAll_dist_le ..) (Nat.le_of_not_lt h)
      · exact ih dist heap e he hnode

theorem relaxAll_untouched (cost : Nat) (dist : List Nat) (heap : List State) (es : List Edge)
    {v : Nat} (hv : ∀ e ∈ es, e.node = v → dist.getD v 0 ≤ cost + e.cost) :
    (relaxAll cost dist heap es).1.getD v 0 = dist.getD v 0 := by
  induction es generalizing dist heap with
  | nil => rfl
  | cons e es ih =>
    rw [relaxAll]
    by_cases hev : e.node = v
    · have hle : dist.getD e.node 0 ≤ cost + e.cost := by
        rw [hev]
        exact hv e (List.mem_cons_self ..) hev
      rw [if_neg (Nat.not_lt_of_le hle)]
      exact ih dist heap fun e' he' => hv e' (List.mem_cons_of_mem _ he')
    · by_cases h : cost + e.cost < dist.getD e.node 0
      · rw [if_pos h]
        have hset : (dist.set e.node (cost + e.cost)).getD v 0 = dist.getD v 0 :=
          getD_set_ne hev _
        rw [ih _ _ fun e' he' he'v => by
          rw [hset]; exact hv e' (List.mem_cons_of_mem _ he') he'v]
        exact hset
      · rw [if_neg h]
        exact ih dist heap fun e' he' => hv e' (List.mem_cons_of_mem _ he')

theorem relaxAll_measure (cost : Nat) (dist : List Nat) (heap : List State) (es : List Edge) :
    (relaxAll cost dist heap es).1.sum + (relaxAll cost dist heap es).2.length ≤
      dist.sum + heap.length := by
  induction es generalizing dist heap with
  | nil => exact Nat.le_refl _
  | cons e es ih =>
    rw [relaxAll]
    by_cases h : cost + e.cost < dist.getD e.node 0
    · rw [if_pos h]
      have hsum : (dist.set e.node (cost + e.cost)).sum + dist.getD e.node 0 =
          dist.sum + (cost + e.cost) := sum_set_getD (lt_length_of_lt_getD h) _
      have := ih (dist.set e.node (cost + e.cost)) (⟨cost + e.cost, e.node⟩ :: heap)
      simp only [List.length_cons] at this
      omega
    · rw [if_neg h]
      exact ih dist heap

/-! ### Directed paths and the search invariant -/

/-- Well-formed adjacency list: every edge targets an existing node.  (For an
edge out of bounds the Rust `shortest_path` panics when indexing the distance
table, so the code only ever runs on well-formed lists.) -/
def WF (adj : List (List Edge)) : Prop :=
  ∀ l ∈ adj, ∀ e ∈ l, e.node < adj.length

instance (adj : List (List Edge)) : Decidable (WF adj) := by
  unfold WF
  exact inferInstance

theorem WF.edge_lt {adj : List (List Edge)} (h : WF adj) {u : Nat} {e : Edge}
    (he : e ∈ adj.getD u []) : e.node < adj.length := by
  by_cases hu : u < adj.length
  · rw [List.getD_eq_getElem _ _ hu] at he
    exact h _ (List.getElem_mem hu) e he
  · rw [List.getD_eq_default _ _ (Nat.le_of_not_lt hu)] at he
    cases he

/-- A directed path in the adjacency list from `s` to the given node with the
given total edge cost, grown one edge at a time at the target end. -/
inductive PathC (adj : List (List Edge)) (s : Nat) : Nat → Nat → Prop
  | nil : PathC adj s s 0
  | snoc {u c : Nat} {e : Edge} (h : PathC adj s u c) (he : e ∈ adj.getD u []) :
      PathC adj s e.node (c + e.cost)

theorem PathC.target_lt {adj : List (List Edge)} {s : Nat} (hwf : WF adj)
    (hs : s < adj.length) {v c : Nat} (h : PathC adj s v c) : v < adj.length := by
  cases h with
  | nil => exact hs
  | snoc h he => exact hwf.edge_lt he

/-- Invariant of the `shortest_path` loop, relative to the ghost set `S` of
settled nodes: recorded finite distances are path costs, queue entries are
path costs dominating the table, every unsettled finite node still has its
current table entry queued, settled entries are minimal and have all their
edges relaxed, and the target is never settled (the loop returns instead). -/
structure Inv (adj : List (List Edge)) (s t : Nat) (dist : List Nat) (heap : List State)
    (S : Set Nat) : Prop where
  len : dist.length = adj.length
  distLe : ∀ v, dist.getD v 0 ≤ usizeMax
  distStart : dist.getD s 0 = 0
  distSound : ∀ v, v < adj.length → dist.getD v 0 < usizeMax →
    PathC adj s v (dist.getD v 0)
  heapSound : ∀ x ∈ heap, x.position < adj.length ∧ PathC adj s x.position x.cost ∧
    dist.getD x.position 0 ≤ x.cost ∧ x.cost < usizeMax
  frontier : ∀ v, v < adj.length → v ∉ S → dist.getD v 0 < usizeMax →
    (⟨dist.getD v 0, v⟩ : State) ∈ heap
  settledMin : ∀ v ∈ S, ∀ c, PathC adj s v c → dist.getD v 0 ≤ c
  settledRelaxed : ∀ v ∈ S, ∀ e ∈ adj.getD v [], dist.getD e.node 0 ≤ dist.getD v 0 + e.cost
  tFree : t ∉ S

/-- Any path from `s` of cost below `usize::MAX` is either already matched by
the distance table at its endpoint, or crosses a node whose current table
entry is still queued with cost at most the path cost. -/
theorem Inv.crossing {adj : List (List Edge)} {s t : Nat} {dist : List Nat}
    {heap : List State} {S : Set Nat} (inv : Inv adj s t dist heap S)
    (hwf : WF adj) (hs : s < adj.length) {v c : Nat} (hp : PathC adj s v c) :
    c < usizeMax →
      dist.getD v 0 ≤ c ∨
        ∃ q, (⟨dist.getD q 0, q⟩ : State) ∈ heap ∧ dist.getD q 0 ≤ c := by
  induction hp with
  | nil =>
    intro _
    exact Or.inl (by rw [inv.distStart])
  | @snoc u a e h he ih =>
    intro hc
    have ha : a < usizeMax := Nat.lt_of_le_of_lt (Nat.le_add_right ..) hc
    rcases ih ha with hdu | ⟨q, hqmem, hqle⟩
    · by_cases hu : u ∈ S
      · exact Or.inl (Nat.le_trans (inv.settledRelaxed u hu e he)
          (Nat.add_le_add_right hdu _))
      · have hult : u < adj.length := PathC.target_lt hwf hs h
        have hdlt : dist.getD u 0 < usizeMax := Nat.lt_of_le_of_lt hdu ha
        exact Or.inr ⟨u, inv.frontier u hult hu hdlt,
          Nat.le_trans hdu (Nat.le_add_right ..)⟩
    · exact Or.inr ⟨q, hqmem, Nat.le_trans hqle (Nat.le_add_right ..)⟩

/-- Popping a stale entry (recorded distance already better than the popped
cost) and discarding it preserves the invariant. -/
theorem Inv.stale {adj : List (List Edge)} {s t : Nat} {dist : List Nat}
    {heap : List State} {S : Set Nat} (inv : Inv adj s t dist heap S)
    {x : State} {heap1 : List State} (hpop : popMax heap = some (x, heap1))
    (hstale : dist.getD x.position 0 < x.cost) : Inv adj s t dist heap1 S := by
  have hperm := popMax_perm hpop
  refine ⟨inv.len, inv.distLe, inv.distStart, inv.distSound, ?_, ?_, inv.settledMin,
    inv.settledRelaxed, inv.tFree⟩
  · intro y hy
    exact inv.heapSound y (hperm.mem_iff.mpr (List.mem_cons_of_mem _ hy))
  · intro v hv hvS hvlt
    refine mem_of_perm_cons hperm (inv.frontier v hv hvS hvlt) ?_
    intro heq
    have h1 : dist.getD v 0 = x.cost := congrArg State.cost heq
    have h2 : v = x.position := congrArg State.position heq
    rw [h2] at h1
    omega

/-- Popping a non-stale entry, relaxing its outgoing edges, and settling its
node preserves the invariant; moreover the distance entries of previously
settled nodes and of the newly settled node do not change. -/
theorem Inv.settle {adj : List (List Edge)} {s t : Nat} {dist : List Nat}
    {heap : List State} {S : Set Nat} (inv : Inv adj s t dist heap S)
    (hwf : WF adj) (hs : s < adj.length)
    {x : State} {heap1 : List State} (hpop : popMax heap = some (x, heap1))
    (hns : ¬ dist.getD x.position 0 < x.cost) (hxt : x.position ≠ t) :
    Inv adj s t (relaxAll x.cost dist heap1 (adj.getD x.position [])).1
      (relaxAll x.cost dist heap1 (adj.getD x.position [])).2 (insert x.position S) ∧
    (∀ v ∈ S, (relaxAll x.cost dist heap1 (adj.getD x.position [])).1.getD v 0 =
      dist.getD v 0) ∧
    (relaxAll x.cost dist heap1 (adj.getD x.position [])).1.getD x.position 0 = x.cost := by
  have hperm := popMax_perm hpop
  have hxmem : x ∈ heap := hperm.mem_iff.mpr (List.mem_cons_self ..)
  obtain ⟨hxlt, hxpath, hxle, hxmax⟩ := inv.heapSound x hxmem
  have hdist_eq : dist.getD x.position 0 = x.cost :=
    Nat.le_antisymm hxle (Nat.le_of_not_lt hns)
  have hmin_pre : ∀ c', PathC adj s x.position c' → x.cost ≤ c' := by
    intro c' hc'
    by_cases hlt : c' < usizeMax
    · rcases inv.crossing hwf hs hc' hlt with hd | ⟨q, hq, hqle⟩
      · rw [hdist_eq] at hd
        exact hd
      · exact Nat.le_trans (popMax_min hpop _ hq) hqle
    · exact Nat.le_trans (Nat.le_of_lt hxmax) (Nat.le_of_not_lt hlt)
  have huntouched : ∀ v, (∀ c', PathC adj s v c' → dist.getD v 0 ≤ c') →
      (relaxAll x.cost dist heap1 (adj.getD x.position [])).1.getD v 0 = dist.getD v 0 := by
    intro v hv
    refine relaxAll_untouched _ _ _ _ ?_
    intro e he hev
    have : PathC adj s e.node (x.cost + e.cost) := PathC.snoc hxpath he
    rw [hev] at this
    exact hv _ this
  have hS_eq : ∀ v ∈ S, (relaxAll x.cost dist heap1 (adj.getD x.position [])).1.getD v 0 =
      dist.getD v 0 := fun v hv => huntouched v (inv.settledMin v hv)
  have hp_eq : (relaxAll x.cost dist heap1 (adj.getD x.position [])).1.getD x.position 0 =
      x.cost := by
    rw [huntouched x.position ?_, hdist_eq]
    intro c' hc'
    rw [hdist_eq]
    exact hmin_pre c' hc'
  refine ⟨⟨?_, ?_, ?_, ?_, ?_, ?_, ?_, ?_, ?_⟩, hS_eq, hp_eq⟩
  · rw [relaxAll_length]
    exact inv.len
  · intro v
    exact Nat.le_trans (relaxAll_dist_le ..) (inv.distLe v)
  · have h0 : (relaxAll x.cost dist heap1 (adj.getD x.position [])).1.getD s 0 ≤
        dist.getD s 0 := relaxAll_dist_le ..
    rw [inv.distStart] at h0
    omega
  · intro v hv hvmax
    rcases relaxAll_dist_cases x.cost dist heap1 (adj.getD x.position []) v with
      heq | ⟨_, ⟨e, he, hev, hval⟩, _⟩
    · rw [heq] at hvmax ⊢
      exact inv.distSound v hv hvmax
    · rw [hval]
      have := PathC.snoc hxpath he
      rw [hev] at this
      exact this
  · intro y hy
    rcases relaxAll_heap_new x.cost dist heap1 (adj.getD x.position []) y hy with
      hmem | ⟨e, he, rfl, hlt⟩
    · obtain ⟨h1, h2, h3, h4⟩ :=
        inv.heapSound y (hperm.mem_iff.mpr (List.mem_cons_of_mem _ hmem))
      exact ⟨h1, h2, Nat.le_trans (relaxAll_dist_le ..) h3, h4⟩
    · refine ⟨hwf.edge_lt he, PathC.snoc hxpath he, ?_, ?_⟩
      · exact relaxAll_relaxed _ _ _ _ e he (by rw [inv.len]; exact hwf.edge_lt he)
      · exact Nat.lt_of_lt_of_le hlt (inv.distLe e.node)
  · intro v hv hvS hvmax
    have hvne : v ≠ x.position := fun h => hvS (h ▸ Set.mem_insert _ _)
    have hvnotS : v ∉ S := fun h => hvS (Set.mem_insert_of_mem _ h)
    rcases relaxAll_dist_cases x.cost dist heap1 (adj.getD x.position []) v with
      heq | ⟨_, _, hentry⟩
    · rw [heq] at hvmax ⊢
      have hold := inv.frontier v hv hvnotS hvmax
      refine relaxAll_heap_mono _ _ _ _ _ (mem_of_perm_cons hperm hold ?_)
      intro habs
      exact hvne (congrArg State.position habs)
    · exact hentry
  · intro v hv c' hc'
    rcases Set.mem_insert_iff.mp hv with rfl | hvS
    · rw [hp_eq]
      exact hmin_pre c' hc'
    · rw [hS_eq v hvS]
      exact inv.settledMin v hvS c' hc'
  · intro v hv e he
    rcases Set.mem_insert_iff.mp hv with rfl | hvS
    · rw [hp_eq]
      exact relaxAll_relaxed _ _ _ _ e he (by rw [inv.len]; exact hwf.edge_lt he)
    · rw [hS_eq v hvS]
      exact Nat.le_trans (Nat.le_trans (relaxAll_dist_le ..)
        (inv.settledRelaxed v hvS e he)) (Nat.le_refl _)
  · intro habs
    rcases Set.mem_insert_iff.mp habs with h | h
    · exact hxt h.symm
    · exact inv.tFree h

/-! ### Correctness of the main loop -/

theorem sp_go_succ_none {adj : List (List Edge)} {t fuel : Nat} {dist : List Nat}
    {heap : List State} (h : popMax heap = none) :
    sp_go adj t (fuel + 1) dist heap = some none := by
  rw [sp_go, h]

theorem sp_go_succ_some {adj : List (List Edge)} {t fuel : Nat} {dist : List Nat}
    {heap heap1 : List State} {x : State} (h : popMax heap = some (x, heap1)) :
    sp_go adj t (fuel + 1) dist heap =
      if x.position = t then some (some x.cost)
      else if dist.getD x.position 0 < x.cost then sp_go adj t fuel dist heap1
      else sp_go adj t fuel (relaxAll x.cost dist heap1 (adj.getD x.position [])).1
        (relaxAll x.cost dist heap1 (adj.getD x.position [])).2 := by
  rw [sp_go, h]

theorem sp_go_succ_target {adj : List (List Edge)} {t fuel : Nat} {dist : List Nat}
    {heap heap1 : List State} {x : State} (h : popMax heap = some (x, heap1))
    (hx : x.position = t) : sp_go adj t (fuel + 1) dist heap = some (some x.cost) := by
  rw [sp_go_succ_some h, if_pos hx]

theorem sp_go_succ_stale {adj : List (List Edge)} {t fuel : Nat} {dist : List Nat}
    {heap heap1 : List State} {x : State} (h : popMax heap = some (x, heap1))
    (hx : x.position ≠ t) (hst : dist.getD x.position 0 < x.cost) :
    sp_go adj t (fuel + 1) dist heap = sp_go adj t fuel dist heap1 := by
  rw [sp_go_succ_some h, if_neg hx, if_pos hst]

theorem sp_go_succ_relax {adj : List (List Edge)} {t fuel : Nat} {dist : List Nat}
    {heap heap1 : List State} {x : State} (h : popMax heap = some (x, heap1))
    (hx : x.position ≠ t) (hst : ¬ dist.getD x.position 0 < x.cost) :
    sp_go adj t (fuel + 1) dist heap =
      sp_go adj t fuel (relaxAll x.cost dist heap1 (adj.getD x.position [])).1
        (relaxAll x.cost dist heap1 (adj.getD x.position [])).2 := by
  rw [sp_go_succ_some h, if_neg hx, if_neg hst]

/-- Main loop specification: with fuel dominating the loop measure and the
invariant holding, the loop never exhausts its fuel, a returned cost is a
minimum path cost below `usize::MAX`, and "no path" is reported exactly when
every path to the target costs at least `usize::MAX`. -/
theorem sp_go_spec {adj : List (List Edge)} {s t : Nat} (hwf : WF adj)
    (hs : s < adj.length) (ht : t < adj.length) :
    ∀ fuel (dist : List Nat) (heap : List State) (S : Set Nat),
      dist.sum + heap.length < fuel → Inv adj s t dist heap S →
      sp_go adj t fuel dist heap ≠ none ∧
      (∀ c, sp_go adj t fuel dist heap = some (some c) →
        c < usizeMax ∧ PathC adj s t c ∧ ∀ c', PathC adj s t c' → c ≤ c') ∧
      (sp_go adj t fuel dist heap = some none → ∀ c', PathC adj s t c' → usizeMax ≤ c') := by
  intro fuel
  induction fuel with
  | zero =>
    intro dist heap S hm
    omega
  | succ fuel ih =>
    intro dist heap S hm inv
    cases hpop : popMax heap with
    | none =>
      have hnil : heap = [] := popMax_eq_none hpop
      rw [sp_go_succ_none hpop]
      refine ⟨by simp, by intro c hc; simp at hc, ?_⟩
      intro _ c' hc'
      by_contra hlt
      push_neg at hlt
      rcases inv.crossing hwf hs hc' hlt with hd | ⟨q, hq, _⟩
      · have := inv.frontier t ht inv.tFree (Nat.lt_of_le_of_lt hd hlt)
        rw [hnil] at this
        cases this
      · rw [hnil] at hq
        cases hq
    | some p =>
      obtain ⟨x, heap1⟩ := p
      have hperm := popMax_perm hpop
      have hxmem : x ∈ heap := hperm.mem_iff.mpr (List.mem_cons_self ..)
      obtain ⟨hxlt, hxpath, hxle, hxmax⟩ := inv.heapSound x hxmem
      by_cases hxt : x.position = t
      · rw [sp_go_succ_target hpop hxt]
        refine ⟨by simp, ?_, by intro h; simp at h⟩
        intro c hc
        simp only [Option.some.injEq] at hc
        subst hc
        rw [hxt] at hxpath
        refine ⟨hxmax, hxpath, ?_⟩
        intro c' hc'
        by_cases hlt : c' < usizeMax
        · rcases inv.crossing hwf hs hc' hlt with hd | ⟨q, hq, hqle⟩
          · have hfr := inv.frontier t ht inv.tFree (Nat.lt_of_le_of_lt hd hlt)
            exact Nat.le_trans (popMax_min hpop _ hfr) hd
          · exact Nat.le_trans (popMax_min hpop _ hq) hqle
        · exact Nat.le_trans (Nat.le_of_lt hxmax) (Nat.le_of_not_lt hlt)
      · have hlen : heap.length = heap1.length + 1 := by
          simpa using hperm.length_eq
        by_cases hst : dist.getD x.position 0 < x.cost
        · rw [sp_go_succ_stale hpop hxt hst]
          exact ih dist heap1 S (by omega) (inv.stale hpop hst)
        · rw [sp_go_succ_relax hpop hxt hst]
          obtain ⟨inv', _, _⟩ := inv.settle hwf hs hpop hst hxt
          have hmeas := relaxAll_measure x.cost dist heap1 (adj.getD x.position [])
          exact ih _ _ (insert x.position S) (by omega) inv'

/-! ### The initial state and top-level correctness -/

theorem initState_getD {adj : List (List Edge)} {start : Nat} (hlt : start < adj.length)
    {v : Nat} (hv : v < adj.length) :
    (initState adj start).1.getD v 0 = if v = start then 0 else usizeMax := by
  show ((List.replicate adj.length usizeMax).set start 0).getD v 0 = _
  by_cases h : v = start
  · subst h
    rw [if_pos rfl]
    exact getD_set_self (by simpa using hlt) _
  · rw [if_neg h, getD_set_ne (fun hh => h hh.symm) _,
      List.getD_eq_getElem _ _ (by simpa using hv)]
    simp

theorem usizeMax_pos : 0 < usizeMax := by decide

theorem initInv {adj : List (List Edge)} {s : Nat} (t : Nat) (hs : s < adj.length) :
    Inv adj s t (initState adj s).1 (initState adj s).2 ∅ := by
  refine ⟨?_, ?_, ?_, ?_, ?_, ?_, ?_, ?_, ?_⟩
  · simp [initState]
  · intro v
    by_cases hv : v < adj.length
    · rw [initState_getD hs hv]
      by_cases h : v = s
      · rw [if_pos h]
        exact Nat.zero_le _
      · rw [if_neg h]
    · rw [List.getD_eq_default _ _ (by simpa [initState] using Nat.le_of_not_lt hv)]
      exact Nat.zero_le _
  · rw [initState_getD hs hs, if_pos rfl]
  · intro v hv hvmax
    rw [initState_getD hs hv] at hvmax ⊢
    by_cases h : v = s
    · subst h
      rw [if_pos rfl]
      exact PathC.nil
    · rw [if_neg h] at hvmax
      exact absurd hvmax (Nat.lt_irrefl _)
  · intro x hx
    simp only [initState, List.mem_singleton] at hx
    subst hx
    refine ⟨hs, PathC.nil, ?_, usizeMax_pos⟩
    rw [initState_getD hs hs, if_pos rfl]
  · intro v hv _ hvmax
    rw [initState_getD hs hv] at hvmax
    by_cases h : v = s
    · subst h
      rw [initState_getD hs hv, if_pos rfl]
      simp [initState]
    · rw [if_neg h] at hvmax
      exact absurd hvmax (Nat.lt_irrefl _)
  · intro v hv
    exact absurd hv (Set.not_mem_empty v)
  · intro v hv
    exact absurd hv (Set.not_mem_empty v)
  · exact Set.not_mem_empty t

/-- Top-level correctness of `shortest_path` over a well-formed adjacency
list: a returned cost is the minimum path cost from `start` to `target` (and
is below `usize::MAX`), and `none` is returned exactly when every directed
path from `start` to `target` costs at least `usize::MAX` — in particular
when no path exists at all. -/
theorem shortest_path_correct {adj : List (List Edge)} {s t : Nat} (hwf : WF adj)
    (hs : s < adj.length) (ht : t < adj.length) :
    (∀ c, shortest_path adj s t = some c →
      c < usizeMax ∧ PathC adj s t c ∧ ∀ c', PathC adj s t c' → c ≤ c') ∧
    (shortest_path adj s t = none ↔ ∀ c', PathC adj s t c' → usizeMax ≤ c') := by
  obtain ⟨hnn, hsome, hnone⟩ := sp_go_spec hwf hs ht
    ((initState adj s).1.sum + (initState adj s).2.length + 1)
    (initState adj s).1 (initState adj s).2 ∅ (by omega) (initInv t hs)
  unfold shortest_path
  cases hgo : sp_go adj t ((initState adj s).1.sum + (initState adj s).2.length + 1)
      (initState adj s).1 (initState adj s).2 with
  | none => exact absurd hgo hnn
  | some r =>
    cases r with
    | none =>
      refine ⟨?_, ?_⟩
      · intro c hc
        simp at hc
      · exact ⟨fun _ => hnone hgo, fun _ => rfl⟩
    | some c0 =>
      refine ⟨?_, ?_⟩
      · intro c hc
        simp only [Option.getD_some, Option.some.injEq] at hc
        subst hc
        exact hsome c0 hgo
      · refine ⟨fun h => by simp at h, fun h => ?_⟩
        obtain ⟨hmax, hpath, _⟩ := hsome c0 hgo
        exact absurd (h c0 hpath) (Nat.not_le_of_lt hmax)

/-! ### Agreement of the checked and idealized searches -/

theorem relaxAllChk_measure (cost : Nat) :
    ∀ (dist : List Nat) (heap : List State) (es : List Edge)
      (p : List Nat × List State),
      relaxAllChk cost dist heap es = some p →
      p.1.sum + p.2.length ≤ dist.sum + heap.length := by
  intro dist heap es
  induction es generalizing dist heap with
  | nil =>
    intro p h
    rw [relaxAllChk] at h
    cases h
    exact Nat.le_refl _
  | cons e es ih =>
    intro p h
    rw [relaxAllChk] at h
    cases hadd : checkedAdd cost e.cost with
    | none =>
      rw [hadd] at h
      cases h
    | some nc =>
      rw [hadd] at h
      cases hdv : dist[e.node]? with
      | none =>
        rw [hdv] at h
        cases h
      | some dv =>
        rw [hdv] at h
        have hlt : e.node < dist.length := by
          by_contra hcon
          rw [List.getElem?_eq_none (Nat.le_of_not_lt hcon)] at hdv
          cases hdv
        have hdv' : dist.getD e.node 0 = dv := by
          have h1 := List.getElem?_eq_getElem hlt
          rw [hdv] at h1
          rw [List.getD_eq_getElem _ _ hlt]
          exact (Option.some.inj h1).symm
        have hif : (if nc < dv then
            relaxAllChk cost (dist.set e.node nc) (⟨nc, e.node⟩ :: heap) es
          else relaxAllChk cost dist heap es) = some p := h
        by_cases hc : nc < dv
        · rw [if_pos hc] at hif
          have hrec := ih _ _ _ hif
          have hsum : (dist.set e.node nc).sum + dist.getD e.node 0 =
              dist.sum + nc := sum_set_getD hlt _
          simp only [List.length_cons] at hrec
          omega
        · rw [if_neg hc] at hif
          exact ih _ _ _ hif

theorem relaxAllChk_eq_relaxAll (cost : Nat) :
    ∀ (dist : List Nat) (heap : List State) (es : List Edge)
      (p : List Nat × List State),
      relaxAllChk cost dist heap es = some p → relaxAll cost dist heap es = p := by
  intro dist heap es
  induction es generalizing dist heap with
  | nil =>
    intro p h
    rw [relaxAllChk] at h
    cases h
    rfl
  | cons e es ih =>
    intro p h
    rw [relaxAllChk] at h
    cases hadd : checkedAdd cost e.cost with
    | none =>
      rw [hadd] at h
      cases h
    | some nc =>
      rw [hadd] at h
      have hnc : nc = cost + e.cost := by
        unfold checkedAdd at hadd
        by_cases hle : cost + e.cost ≤ usizeMax
        · rw [if_pos hle] at hadd
          exact (Option.some.inj hadd).symm
        · rw [if_neg hle] at hadd
          cases hadd
      subst hnc
      cases hdv : dist[e.node]? with
      | none =>
        rw [hdv] at h
        cases h
      | some dv =>
        rw [hdv] at h
        have hlt : e.node < dist.length := by
          by_contra hcon
          rw [List.getElem?_eq_none (Nat.le_of_not_lt hcon)] at hdv
          cases hdv
        have hdv' : dist.getD e.node 0 = dv := by
          have h1 := List.getElem?_eq_getElem hlt
          rw [hdv] at h1
          rw [List.getD_eq_getElem _ _ hlt]
          exact (Option.some.inj h1).symm
        have hif : (if cost + e.cost < dv then
            relaxAllChk cost (dist.set e.node (cost + e.cost))
              (⟨cost + e.cost, e.node⟩ :: heap) es
          else relaxAllChk cost dist heap es) = some p := h
        rw [relaxAll, hdv']
        by_cases hc : cost + e.cost < dv
        · rw [if_pos hc] at hif ⊢
          exact ih _ _ _ hif
        · rw [if_neg hc] at hif ⊢
          exact ih _ _ _ hif

theorem sp_go_chk_succ_none {adj : List (List Edge)} {t fuel : Nat} {dist : List Nat}
    {heap : List State} (h : popMax heap = none) :
    sp_go_chk adj t (fuel + 1) dist heap = some SPResult.nopath := by
  rw [sp_go_chk, h]

theorem sp_go_chk_succ_some {adj : List (List Edge)} {t fuel : Nat} {dist : List Nat}
    {heap heap1 : List State} {x : State} (h : popMax heap = some (x, heap1)) :
    sp_go_chk adj t (fuel + 1) dist heap =
      if x.position = t then some (SPResult.found x.cost)
      else if dist.getD x.position 0 < x.cost then sp_go_chk adj t fuel dist heap1
      else
        match relaxAllChk x.cost dist heap1 (adj.getD x.position []) with
        | none => some SPResult.panicked
        | some p => sp_go_chk adj t fuel p.1 p.2 := by
  rw [sp_go_chk, h]

theorem sp_go_chk_ne_none {adj : List (List Edge)} {t : Nat} :
    ∀ (fuel : Nat) (dist : List Nat) (heap : List State),
      dist.sum + heap.length < fuel → sp_go_chk adj t fuel dist heap ≠ none := by
  intro fuel
  induction fuel with
  | zero =>
    intro dist heap hm
    omega
  | succ fuel ih =>
    intro dist heap hm
    cases hpop : popMax heap with
    | none =>
      rw [sp_go_chk_succ_none hpop]
      simp
    | some pr =>
      obtain ⟨x, heap1⟩ := pr
      rw [sp_go_chk_succ_some hpop]
      have hlen : heap.length = heap1.length + 1 := by
        simpa using (popMax_perm hpop).length_eq
      by_cases hxt : x.position = t
      · rw [if_pos hxt]
        simp
      · rw [if_neg hxt]
        by_cases hst : dist.getD x.position 0 < x.cost
        · rw [if_pos hst]
          exact ih dist heap1 (by omega)
        · rw [if_neg hst]
          cases hrel : relaxAllChk x.cost dist heap1 (adj.getD x.position []) with
          | none => simp
          | some p =>
            have hmeas := relaxAllChk_measure x.cost dist heap1 _ p hrel
            exact ih p.1 p.2 (by omega)

theorem sp_go_chk_agree {adj : List (List Edge)} {t : Nat} :
    ∀ (fuel : Nat) (dist : List Nat) (heap : List State) (r : SPResult),
      sp_go_chk adj t fuel dist heap = some r →
      r = SPResult.panicked ∨
      (r = SPResult.nopath ∧ sp_go adj t fuel dist heap = some none) ∨
      (∃ c, r = SPResult.found c ∧ sp_go adj t fuel dist heap = some (some c)) := by
  intro fuel
  induction fuel with
  | zero =>
    intro dist heap r h
    cases h
  | succ fuel ih =>
    intro dist heap r h
    cases hpop : popMax heap with
    | none =>
      rw [sp_go_chk_succ_none hpop] at h
      cases h
      exact Or.inr (Or.inl ⟨rfl, sp_go_succ_none hpop⟩)
    | some pr =>
      obtain ⟨x, heap1⟩ := pr
      rw [sp_go_chk_succ_some hpop] at h
      by_cases hxt : x.position = t
      · rw [if_pos hxt] at h
        cases h
        exact Or.inr (Or.inr ⟨x.cost, rfl, sp_go_succ_target hpop hxt⟩)
      · rw [if_neg hxt] at h
        by_cases hst : dist.getD x.position 0 < x.cost
        · rw [if_pos hst] at h
          rcases ih dist heap1 r h with h1 | ⟨h1, h2⟩ | ⟨c, h1, h2⟩
          · exact Or.inl h1
          · exact Or.inr (Or.inl ⟨h1, by
              rw [sp_go_succ_stale hpop hxt hst]
              exact h2⟩)
          · exact Or.inr (Or.inr ⟨c, h1, by
              rw [sp_go_succ_stale hpop hxt hst]
              exact h2⟩)
        · rw [if_neg hst] at h
          cases hrel : relaxAllChk x.cost dist heap1 (adj.getD x.position []) with
          | none =>
            rw [hrel] at h
            cases h
            exact Or.inl rfl
          | some p =>
            rw [hrel] at h
            have heq := relaxAllChk_eq_relaxAll x.cost dist heap1 _ p hrel
            rcases ih p.1 p.2 r h with h1 | ⟨h1, h2⟩ | ⟨c, h1, h2⟩
            · exact Or.inl h1
            · refine Or.inr (Or.inl ⟨h1, ?_⟩)
              rw [sp_go_succ_relax hpop hxt hst, heq]
              exact h2
            · refine Or.inr (Or.inr ⟨c, h1, ?_⟩)
              rw [sp_go_succ_relax hpop hxt hst, heq]
              exact h2

/-- The checked search agrees with the idealized one on every run that does
not panic. -/
theorem shortest_path_chk_agree (adj : List (List Edge)) (s t : Nat) :
    (∀ c, shortest_path_chk adj s t = SPResult.found c →
      shortest_path adj s t = some c) ∧
    (shortest_path_chk adj s t = SPResult.nopath → shortest_path adj s t = none) := by
  unfold shortest_path_chk shortest_path
  cases hgo : sp_go_chk adj t ((initState adj s).1.sum + (initState adj s).2.length + 1)
      (initState adj s).1 (initState adj s).2 with
  | none =>
    exact absurd hgo (sp_go_chk_ne_none _ _ _ (by omega))
  | some r =>
    rcases sp_go_chk_agree _ _ _ r hgo with h1 | ⟨h1, h2⟩ | ⟨c, h1, h2⟩
    · subst h1
      refine ⟨?_, ?_⟩
      · intro c hc
        cases hc
      · intro hc
        cases hc
    · subst h1
      refine ⟨?_, ?_⟩
      · intro c hc
        cases hc
      · intro _
        rw [h2]
        rfl
    · subst h1
      refine ⟨?_, ?_⟩
      · intro c' hc
        cases hc
        rw [h2]
        rfl
      · intro hc
        cases hc

/-- C1 (amended): over the faithful checked model `shortest_path_chk`, for
every adjacency list whose edges stay in bounds and in-bounds start and
target nodes: a returned cost is the minimum total edge cost over all
directed paths from start to target (and lies below `usize::MAX`); and
whenever the run does not panic on a `usize` overflow, "no path" is reported
exactly when every directed path (if any) costs at least `usize::MAX` — in
particular whenever no path exists — and a cost is returned whenever some
path of cost below `usize::MAX` exists. -/
theorem C1_shortest_path_minimum (adj : List (List Edge)) (s t : Nat) (hwf : WF adj)
    (hs : s < adj.length) (ht : t < adj.length) :
    (∀ c, shortest_path_chk adj s t = SPResult.found c →
      c < usizeMax ∧ PathC adj s t c ∧ ∀ c', PathC adj s t c' → c ≤ c') ∧
    (shortest_path_chk adj s t ≠ SPResult.panicked →
      ((shortest_path_chk adj s t = SPResult.nopath ↔
        ∀ c', PathC adj s t c' → usizeMax ≤ c') ∧
       ((∃ c', PathC adj s t c' ∧ c' < usizeMax) →
        ∃ c, shortest_path_chk adj s t = SPResult.found c))) := by
  obtain ⟨hfound, hnopath⟩ := shortest_path_chk_agree adj s t
  obtain ⟨h1, h2⟩ := shortest_path_correct hwf hs ht
  constructor
  · intro c hc
    exact h1 c (hfound c hc)
  · intro hnp
    cases hres : shortest_path_chk adj s t with
    | panicked => exact absurd hres hnp
    | nopath =>
      have hnone := hnopath hres
      refine ⟨⟨fun _ => h2.mp hnone, fun _ => rfl⟩, ?_⟩
      rintro ⟨c', hc', hlt⟩
      exact absurd (h2.mp hnone c' hc') (Nat.not_le_of_lt hlt)
    | found c =>
      have hsome := hfound c hres
      obtain ⟨hmax, hpath, _⟩ := h1 c hsome
      refine ⟨⟨fun habs => ?_, fun hall => ?_⟩, fun _ => ⟨c, rfl⟩⟩
      · cases habs
      · exact absurd (hall c hpath) (Nat.not_le_of_lt hmax)

/-- Witness for C1 at the concrete two-node graph with one unit edge. -/
theorem C1_shortest_path_minimum_witness :
    WF [[Edge.mk 1 1], []] ∧ 0 < ([[Edge.mk 1 1], []] : List (List Edge)).length ∧
    1 < ([[Edge.mk 1 1], []] : List (List Edge)).length ∧
    ((∀ c, shortest_path_chk [[Edge.mk 1 1], []] 0 1 = SPResult.found c →
      c < usizeMax ∧ PathC [[Edge.mk 1 1], []] 0 1 c ∧
        ∀ c', PathC [[Edge.mk 1 1], []] 0 1 c' → c ≤ c') ∧
    (shortest_path_chk [[Edge.mk 1 1], []] 0 1 ≠ SPResult.panicked →
      ((shortest_path_chk [[Edge.mk 1 1], []] 0 1 = SPResult.nopath ↔
        ∀ c', PathC [[Edge.mk 1 1], []] 0 1 c' → usizeMax ≤ c') ∧
       ((∃ c', PathC [[Edge.mk 1 1], []] 0 1 c' ∧ c' < usizeMax) →
        ∃ c, shortest_path_chk [[Edge.mk 1 1], []] 0 1 = SPResult.found c)))) :=
  ⟨by decide, by decide, by decide,
    C1_shortest_path_minimum [[Edge.mk 1 1], []] 0 1 (by decide) (by decide) (by decide)⟩

/-- Counterexample to C1 as stated: in the two-node graph whose only edge
costs exactly `usize::MAX`, a directed path from node 0 to node 1 exists and
no overflow occurs (the sum `0 + usize::MAX` is representable), yet the
search reports "no path" — in the checked model and in the idealized one —
because the `usize::MAX` initial distance doubles as the "unvisited"
sentinel, which a real path cost can never strictly undercut. -/
theorem C1_shortest_path_counterexample :
    shortest_path_chk [[Edge.mk 1 usizeMax], []] 0 1 = SPResult.nopath ∧
    shortest_path [[Edge.mk 1 usizeMax], []] 0 1 = none ∧
    PathC [[Edge.mk 1 usizeMax], []] 0 1 (0 + usizeMax) := by
  refine ⟨by decide, by decide, ?_⟩
  exact @PathC.snoc [[Edge.mk 1 usizeMax], []] 0 0 0 (Edge.mk 1 usizeMax)
    PathC.nil (by decide)

example :
    shortest_path_chk [[Edge.mk 1 1], [Edge.mk 2 usizeMax], []] 0 2 =
      SPResult.panicked := by decide

example :
    shortest_path_chk [[Edge.mk 1 1, Edge.mk 2 (usizeMax - 1)],
      [Edge.mk 2 usizeMax], []] 0 2 = SPResult.panicked := by decide

/-- C7: querying `shortest_path` with coinciding in-bounds start and target
returns `some 0`: the first popped queue entry is `(0, n)` and it matches the
target immediately. -/
theorem C7_shortest_path_self (adj : List (List Edge)) (n : Nat) (_hn : n < adj.length) :
    shortest_path adj n n = some 0 := by
  unfold shortest_path
  have hpop : popMax (initState adj n).2 = some (⟨0, n⟩, []) := rfl
  rw [sp_go_succ_target hpop rfl]
  rfl

/-- Witness for C7 on a concrete two-node cyclic graph. -/
theorem C7_shortest_path_self_witness :
    0 < ([[Edge.mk 1 1], [Edge.mk 0 1]] : List (List Edge)).length ∧
    shortest_path [[Edge.mk 1 1], [Edge.mk 0 1]] 0 0 = some 0 :=
  ⟨by decide, C7_shortest_path_self [[Edge.mk 1 1], [Edge.mk 0 1]] 0 (by decide)⟩

/-! ### The per-node state machine (settled distances are final) -/

/-- Reflexive-transitive closure of the loop transition `stepFn`: all states a
single `shortest_path` invocation can pass through from a given state. -/
def Steps (adj : List (List Edge)) (t : Nat) :
    (List Nat × List State) → (List Nat × List State) → Prop :=
  Relation.ReflTransGen (fun a b => stepFn adj t a = some b)

theorem stepFn_eq_none {adj : List (List Edge)} {t : Nat} {st : List Nat × List State}
    (hpop : popMax st.2 = none) : stepFn adj t st = none := by
  unfold stepFn
  rw [hpop]

theorem stepFn_eq_some {adj : List (List Edge)} {t : Nat} {st : List Nat × List State}
    {x : State} {heap1 : List State} (hpop : popMax st.2 = some (x, heap1)) :
    stepFn adj t st =
      if x.position = t then none
      else if st.1.getD x.position 0 < x.cost then some (st.1, heap1)
      else some (relaxAll x.cost st.1 heap1 (adj.getD x.position [])) := by
  unfold stepFn
  rw [hpop]

theorem stepFn_dist_le {adj : List (List Edge)} {t : Nat}
    {st st' : List Nat × List State} (h : stepFn adj t st = some st') (v : Nat) :
    st'.1.getD v 0 ≤ st.1.getD v 0 := by
  cases hpop : popMax st.2 with
  | none =>
    rw [stepFn_eq_none hpop] at h
    cases h
  | some p =>
    obtain ⟨x, heap1⟩ := p
    rw [stepFn_eq_some hpop] at h
    by_cases hxt : x.position = t
    · rw [if_pos hxt] at h
      cases h
    · rw [if_neg hxt] at h
      by_cases hst : st.1.getD x.position 0 < x.cost
      · rw [if_pos hst] at h
        cases h
        exact Nat.le_refl _
      · rw [if_neg hst] at h
        cases h
        exact relaxAll_dist_le ..

theorem Steps_dist_le {adj : List (List Edge)} {t : Nat}
    {st st' : List Nat × List State} (h : Steps adj t st st') (v : Nat) :
    st'.1.getD v 0 ≤ st.1.getD v 0 := by
  induction h with
  | refl => exact Nat.le_refl _
  | tail _ hbc ih => exact Nat.le_trans (stepFn_dist_le hbc v) ih

/-- One loop step grows the settled set, preserves the invariant, and leaves
the distance entries of already settled nodes untouched. -/
theorem stepFn_inv {adj : List (List Edge)} {s t : Nat} (hwf : WF adj)
    (hs : s < adj.length) {st st' : List Nat × List State} {S : Set Nat}
    (inv : Inv adj s t st.1 st.2 S) (h : stepFn adj t st = some st') :
    ∃ S' : Set Nat, S ⊆ S' ∧ Inv adj s t st'.1 st'.2 S' ∧
      ∀ v ∈ S, st'.1.getD v 0 = st.1.getD v 0 := by
  cases hpop : popMax st.2 with
  | none =>
    rw [stepFn_eq_none hpop] at h
    cases h
  | some p =>
    obtain ⟨x, heap1⟩ := p
    rw [stepFn_eq_some hpop] at h
    by_cases hxt : x.position = t
    · rw [if_pos hxt] at h
      cases h
    · rw [if_neg hxt] at h
      by_cases hst : st.1.getD x.position 0 < x.cost
      · rw [if_pos hst] at h
        cases h
        exact ⟨S, subset_refl _, inv.stale hpop hst, fun v _ => rfl⟩
      · rw [if_neg hst] at h
        cases h
        obtain ⟨inv', hSeq, _⟩ := inv.settle hwf hs hpop hst hxt
        exact ⟨insert x.position S, Set.subset_insert _ _, inv', hSeq⟩

/-- Along any run segment, the settled set only grows, the invariant is kept,
and settled distance entries never change. -/
theorem Steps_inv {adj : List (List Edge)} {s t : Nat} (hwf : WF adj)
    (hs : s < adj.length) {st st' : List Nat × List State} {S : Set Nat}
    (inv : Inv adj s t st.1 st.2 S) (h : Steps adj t st st') :
    ∃ S' : Set Nat, S ⊆ S' ∧ Inv adj s t st'.1 st'.2 S' ∧
      ∀ v ∈ S, st'.1.getD v 0 = st.1.getD v 0 := by
  induction h with
  | refl => exact ⟨S, subset_refl _, inv, fun v _ => rfl⟩
  | tail _ hbc ih =>
    obtain ⟨S1, hsub1, inv1, heq1⟩ := ih
    obtain ⟨S2, hsub2, inv2, heq2⟩ := stepFn_inv hwf hs inv1 hbc
    exact ⟨S2, subset_trans hsub1 hsub2, inv2,
      fun v hv => by rw [heq2 v (hsub1 hv), heq1 v hv]⟩

/-- C9: during a single `shortest_path adj s t` run, distance-table entries
only ever decrease, and once a node is popped with a non-stale cost (equal to
its table entry) and processed, its table entry equals that cost and never
changes again for the remainder of the search. -/
theorem C9_settled_distance_final (adj : List (List Edge)) (s t : Nat)
    (hwf : WF adj) (hs : s < adj.length)
    (st1 st2 st3 : List Nat × List State)
    (h1 : Steps adj t (initState adj s) st1)
    (x : State) (heap1 : List State)
    (hpop : popMax st1.2 = some (x, heap1))
    (hns : ¬ st1.1.getD x.position 0 < x.cost)
    (h12 : stepFn adj t st1 = some st2)
    (h23 : Steps adj t st2 st3) :
    (∀ v, st3.1.getD v 0 ≤ st1.1.getD v 0) ∧
    st3.1.getD x.position 0 = x.cost := by
  obtain ⟨S1, _, inv1, _⟩ := Steps_inv hwf hs (initInv t hs) h1
  have hmono : ∀ v, st3.1.getD v 0 ≤ st1.1.getD v 0 := fun v =>
    Nat.le_trans (Steps_dist_le h23 v) (stepFn_dist_le h12 v)
  refine ⟨hmono, ?_⟩
  rw [stepFn_eq_some hpop] at h12
  by_cases hxt : x.position = t
  · rw [if_pos hxt] at h12
    cases h12
  · rw [if_neg hxt, if_neg hns] at h12
    cases h12
    obtain ⟨inv2, _, hpeq⟩ := inv1.settle hwf hs hpop hns hxt
    obtain ⟨S', _, _, heq⟩ := Steps_inv hwf hs inv2 h23
    rw [heq x.position (Set.mem_insert _ _), hpeq]

/-- Witness for C9: one concrete non-stale pop on the two-node unit graph. -/
theorem C9_settled_distance_final_witness :
    WF [[Edge.mk 1 1], []] ∧
    0 < ([[Edge.mk 1 1], []] : List (List Edge)).length ∧
    popMax (initState [[Edge.mk 1 1], []] 0).2 = some (⟨0, 0⟩, []) ∧
    ¬ (initState [[Edge.mk 1 1], []] 0).1.getD (0 : Nat) 0 < (0 : Nat) ∧
    stepFn [[Edge.mk 1 1], []] 1 (initState [[Edge.mk 1 1], []] 0) =
      some (([0, 1] : List Nat), ([⟨1, 1⟩] : List State)) ∧
    ((∀ v, (([0, 1] : List Nat), ([⟨1, 1⟩] : List State)).1.getD v 0 ≤
        (initState [[Edge.mk 1 1], []] 0).1.getD v 0) ∧
      (([0, 1] : List Nat), ([⟨1, 1⟩] : List State)).1.getD (0 : Nat) 0 = 0) := by
  refine ⟨by decide, by decide, by decide, by decide, by decide, ?_⟩
  exact C9_settled_distance_final [[Edge.mk 1 1], []] 0 1 (by decide) (by decide)
    (initState [[Edge.mk 1 1], []] 0) (([0, 1] : List Nat), ([⟨1, 1⟩] : List State))
    (([0, 1] : List Nat), ([⟨1, 1⟩] : List State)) Relation.ReflTransGen.refl
    ⟨0, 0⟩ [] (by decide) (by decide) (by decide) Relation.ReflTransGen.refl

/-! ### Breadth-first layers and the unit-cost cross-check -/

/-- Uniform unit costs: every edge of the adjacency list costs exactly 1 (as
all edges produced by the grid-to-graph conversion do). -/
def UnitCost (adj : List (List Edge)) : Prop :=
  ∀ l ∈ adj, ∀ e ∈ l, e.cost = 1

instance (adj : List (List Edge)) : Decidable (UnitCost adj) := by
  unfold UnitCost
  exact inferInstance

theorem UnitCost.cost_eq {adj : List (List Edge)} (h : UnitCost adj) {u : Nat} {e : Edge}
    (he : e ∈ adj.getD u []) : e.cost = 1 := by
  by_cases hu : u < adj.length
  · rw [List.getD_eq_getElem _ _ hu] at he
    exact h _ (List.getElem_mem hu) e he
  · rw [List.getD_eq_default _ _ (Nat.le_of_not_lt hu)] at he
    cases he

/-- Reachability from `s` in exactly `k` edge steps, ignoring edge costs: `t`
lies in the `k`-th breadth-first layer iff `ReachN adj s t k` holds and no
smaller step count does. -/
inductive ReachN (adj : List (List Edge)) (s : Nat) : Nat → Nat → Prop
  | nil : ReachN adj s s 0
  | snoc {u k : Nat} {e : Edge} (h : ReachN adj s u k) (he : e ∈ adj.getD u []) :
      ReachN adj s e.node (k + 1)

/-- On a unit-cost graph path costs and step counts coincide. -/
theorem pathC_iff_reachN {adj : List (List Edge)} {s : Nat} (hu : UnitCost adj)
    {v c : Nat} : PathC adj s v c ↔ ReachN adj s v c := by
  constructor
  · intro h
    induction h with
    | nil => exact ReachN.nil
    | @snoc u a e h he ih =>
      rw [hu.cost_eq he]
      exact ReachN.snoc ih he
  · intro h
    induction h with
    | nil => exact PathC.nil
    | @snoc u k e h he ih =>
      have hp := PathC.snoc ih he
      rw [hu.cost_eq he] at hp
      exact hp

/-- One breadth-first expansion: the set together with all direct successors
of its members. -/
def expandSet (adj : List (List Edge)) (F : Finset Nat) : Finset Nat :=
  F ∪ F.biUnion (fun u => ((adj.getD u []).map (fun e => e.node)).toFinset)

/-- Nodes reachable from `s` in at most `k` steps. -/
def reachSet (adj : List (List Edge)) (s : Nat) : Nat → Finset Nat
  | 0 => {s}
  | k + 1 => expandSet adj (reachSet adj s k)

theorem reachSet_subset_expand {adj : List (List Edge)} {F : Finset Nat} :
    F ⊆ expandSet adj F :=
  Finset.subset_union_left

theorem reachSet_mem_iff {adj : List (List Edge)} {s : Nat} (k : Nat) (v : Nat) :
    v ∈ reachSet adj s k ↔ ∃ k', k' ≤ k ∧ ReachN adj s v k' := by
  induction k generalizing v with
  | zero =>
    rw [reachSet]
    simp only [Finset.mem_singleton]
    constructor
    · rintro rfl
      exact ⟨0, Nat.le_refl _, ReachN.nil⟩
    · rintro ⟨k', hk', hr⟩
      interval_cases k'
      cases hr
      rfl
  | succ k ih =>
    rw [reachSet]
    unfold expandSet
    simp only [Finset.mem_union, Finset.mem_biUnion, List.mem_toFinset, List.mem_map]
    constructor
    · rintro (hv | ⟨u, hu, e, he, rfl⟩)
      · obtain ⟨k', hk', hr⟩ := ih v |>.mp hv
        exact ⟨k', Nat.le_trans hk' (Nat.le_succ k), hr⟩
      · obtain ⟨k', hk', hr⟩ := ih u |>.mp hu
        exact ⟨k' + 1, by omega, ReachN.snoc hr he⟩
    · rintro ⟨k', hk', hr⟩
      cases hr with
      | nil => exact Or.inl ((ih s).mpr ⟨0, Nat.zero_le _, ReachN.nil⟩)
      | @snoc u j e hr' he =>
        exact Or.inr ⟨u, (ih u).mpr ⟨j, by omega, hr'⟩, e, he, rfl⟩

theorem reachSet_subset_range {adj : List (List Edge)} {s : Nat} (hwf : WF adj)
    (hs : s < adj.length) (k : Nat) :
    reachSet adj s k ⊆ Finset.range adj.length := by
  induction k with
  | zero =>
    intro v hv
    rw [reachSet, Finset.mem_singleton] at hv
    subst hv
    exact Finset.mem_range.mpr hs
  | succ k ih =>
    intro v hv
    rw [reachSet] at hv
    unfold expandSet at hv
    simp only [Finset.mem_union, Finset.mem_biUnion, List.mem_toFinset, List.mem_map] at hv
    rcases hv with hv | ⟨u, _, e, he, rfl⟩
    · exact ih hv
    · exact Finset.mem_range.mpr (hwf.edge_lt he)

theorem reachSet_stab {adj : List (List Edge)} {s : Nat} {j : Nat}
    (hstab : reachSet adj s (j + 1) = reachSet adj s j) :
    ∀ m, j ≤ m → reachSet adj s m = reachSet adj s j := by
  intro m hm
  induction m with
  | zero =>
    have : j = 0 := Nat.le_zero.mp hm
    rw [this]
  | succ m ih =>
    rcases Nat.lt_or_ge j (m + 1) with h | h
    · have heq := ih (by omega)
      calc reachSet adj s (m + 1) = expandSet adj (reachSet adj s m) := rfl
        _ = expandSet adj (reachSet adj s j) := by rw [heq]
        _ = reachSet adj s (j + 1) := rfl
        _ = reachSet adj s j := hstab
    · have : j = m + 1 := by omega
      rw [this]

theorem reachSet_stab_exists {adj : List (List Edge)} {s : Nat} (hwf : WF adj)
    (hs : s < adj.length) :
    ∃ j, j < adj.length ∧ reachSet adj s (j + 1) = reachSet adj s j := by
  by_contra hcon
  push_neg at hcon
  have hcard : ∀ j, j ≤ adj.length → j + 1 ≤ (reachSet adj s j).card := by
    intro j
    induction j with
    | zero =>
      intro _
      rw [reachSet]
      simp
    | succ j ih =>
      intro hj
      have h1 := ih (by omega)
      have hne := hcon j (by omega)
      have hsub : reachSet adj s j ⊆ reachSet adj s (j + 1) := reachSet_subset_expand
      have hss : reachSet adj s j ⊂ reachSet adj s (j + 1) :=
        Finset.ssubset_iff_subset_ne.mpr ⟨hsub, fun h => hne h.symm⟩
      have := Finset.card_lt_card hss
      omega
  have h1 := hcard adj.length (Nat.le_refl _)
  have h2 : (reachSet adj s adj.length).card ≤ adj.length := by
    calc (reachSet adj s adj.length).card
        ≤ (Finset.range adj.length).card :=
          Finset.card_le_card (reachSet_subset_range hwf hs _)
      _ = adj.length := Finset.card_range _
  omega

/-- Every reachable node is reachable within fewer steps than there are
nodes. -/
theorem reachN_short {adj : List (List Edge)} {s : Nat} (hwf : WF adj)
    (hs : s < adj.length) {v k : Nat} (h : ReachN adj s v k) :
    ∃ k', k' < adj.length ∧ ReachN adj s v k' := by
  rcases Nat.lt_or_ge k adj.length with hk | hk
  · exact ⟨k, hk, h⟩
  · obtain ⟨j, hj, hstab⟩ := reachSet_stab_exists hwf hs
    have hv : v ∈ reachSet adj s k := (reachSet_mem_iff k v).mpr ⟨k, Nat.le_refl _, h⟩
    rw [reachSet_stab hstab k (by omega)] at hv
    obtain ⟨k', hk', hr⟩ := (reachSet_mem_iff j v).mp hv
    exact ⟨k', by omega, hr⟩

/-- C6: on a uniform unit-cost graph (as produced from a valid grid) whose
node count fits in a `usize`, `shortest_path` returns exactly the
breadth-first layer distance: `some d` iff `d` is the least number of edge
steps from start to target, and `none` iff breadth-first search never reaches
the target. -/
theorem C6_shortest_path_eq_bfs (adj : List (List Edge)) (s t : Nat)
    (hunit : UnitCost adj) (hwf : WF adj) (hn : adj.length ≤ usizeMax)
    (hs : s < adj.length) (ht : t < adj.length) :
    (∀ d, shortest_path adj s t = some d ↔
      (ReachN adj s t d ∧ ∀ k, ReachN adj s t k → d ≤ k)) ∧
    (shortest_path adj s t = none ↔ ∀ k, ¬ ReachN adj s t k) := by
  obtain ⟨h1, h2⟩ := shortest_path_correct hwf hs ht
  have hreach_short : ∀ k, ReachN adj s t k → ∃ k', k' < usizeMax ∧ ReachN adj s t k' := by
    intro k hk
    obtain ⟨k', hk', hr⟩ := reachN_short hwf hs hk
    exact ⟨k', by omega, hr⟩
  have hnone : shortest_path adj s t = none ↔ ∀ k, ¬ ReachN adj s t k := by
    constructor
    · intro hres k hk
      obtain ⟨k', hk', hr⟩ := hreach_short k hk
      have := h2.mp hres k' ((pathC_iff_reachN hunit).mpr hr)
      omega
    · intro hno
      refine h2.mpr ?_
      intro c' hc'
      exact absurd ((pathC_iff_reachN hunit).mp hc') (hno c')
  refine ⟨?_, hnone⟩
  intro d
  constructor
  · intro hres
    obtain ⟨_, hpath, hmin⟩ := h1 d hres
    exact ⟨(pathC_iff_reachN hunit).mp hpath,
      fun k hk => hmin k ((pathC_iff_reachN hunit).mpr hk)⟩
  · rintro ⟨hd, hdmin⟩
    cases hres : shortest_path adj s t with
    | none => exact absurd hd (hnone.mp hres d)
    | some c =>
      obtain ⟨_, hpath, hmin⟩ := h1 c hres
      have hcd : c ≤ d := hmin d ((pathC_iff_reachN hunit).mpr hd)
      have hdc : d ≤ c := hdmin c ((pathC_iff_reachN hunit).mp hpath)
      rw [Nat.le_antisymm hcd hdc]

/-- Witness for C6 on a concrete three-node unit-cost graph. -/
theorem C6_shortest_path_eq_bfs_witness :
    UnitCost [[Edge.mk 1 1], [Edge.mk 2 1], []] ∧
    WF [[Edge.mk 1 1], [Edge.mk 2 1], []] ∧
    ([[Edge.mk 1 1], [Edge.mk 2 1], []] : List (List Edge)).length ≤ usizeMax ∧
    0 < ([[Edge.mk 1 1], [Edge.mk 2 1], []] : List (List Edge)).length ∧
    2 < ([[Edge.mk 1 1], [Edge.mk 2 1], []] : List (List Edge)).length ∧
    ((∀ d, shortest_path [[Edge.mk 1 1], [Edge.mk 2 1], []] 0 2 = some d ↔
      (ReachN [[Edge.mk 1 1], [Edge.mk 2 1], []] 0 2 d ∧
        ∀ k, ReachN [[Edge.mk 1 1], [Edge.mk 2 1], []] 0 2 k → d ≤ k)) ∧
    (shortest_path [[Edge.mk 1 1], [Edge.mk 2 1], []] 0 2 = none ↔
      ∀ k, ¬ ReachN [[Edge.mk 1 1], [Edge.mk 2 1], []] 0 2 k)) :=
  ⟨by decide, by decide, by decide, by decide, by decide,
    C6_shortest_path_eq_bfs [[Edge.mk 1 1], [Edge.mk 2 1], []] 0 2
      (by decide) (by decide) (by decide) (by decide) (by decide)⟩

/-! ### The height map and its conversion to a graph -/

/-- Mirrors `struct HeightMap`: a grid of (Location, elevation) pairs, the
`u8` elevation modelled as `Nat`. -/
structure HeightMap where
  grid : List (List (Location × Nat))
deriving DecidableEq, Repr

/-- Climb rule of `to_graph`: the test `neighbor as isize - curr as isize <= 1`
on two elevations. -/
def climbOK (neighbor curr : Nat) : Prop := (neighbor : Int) - (curr : Int) ≤ 1

instance (neighbor curr : Nat) : Decidable (climbOK neighbor curr) := by
  unfold climbOK
  exact inferInstance

/-- Checked `usize` subtraction: in Rust `a - b` panics when it underflows
(directly in debug builds, via the ensuing out-of-bounds index in release
builds of this code); `none` models the panic. -/
def checkedSub (a b : Nat) : Option Nat := if b ≤ a then some (a - b) else none

/-- Reading a neighbor cell and producing its edge when the climb rule allows
it; mirrors one of the four `if` blocks in `to_graph` (checked indexing). -/
def neighborEdge (g : List (List (Location × Nat))) (curr : Nat) (r c : Nat) :
    Option (List Edge) :=
  match g[r]? with
  | none => none
  | some rowN =>
    match rowN[c]? with
    | none => none
    | some cellN => some (if climbOK cellN.2 curr then [Edge.mk cellN.1.node_idx 1] else [])

/-- Edges pushed for the cell at `(ridx, cidx)` by `HeightMap::to_graph`, in
source order: up, down, left, right.  The `grid.len() - 2` and
`row.len() - 2` bounds tests of the source are unsigned subtractions,
modelled by `checkedSub`; `none` models the panic they (or an out-of-bounds
neighbor index) cause. -/
def cellEdges (g : List (List (Location × Nat))) (ridx cidx : Nat) :
    Option (List Edge) :=
  match g[ridx]? with
  | none => none
  | some row =>
    match row[cidx]? with
    | none => none
    | some cell =>
      match (if 0 < ridx then neighborEdge g cell.2 (ridx - 1) cidx else some []) with
      | none => none
      | some eup =>
        match checkedSub g.length 2 with
        | none => none
        | some rlim =>
          match (if ridx ≤ rlim then neighborEdge g cell.2 (ridx + 1) cidx
              else some []) with
          | none => none
          | some edown =>
            match (if 0 < cidx then neighborEdge g cell.2 ridx (cidx - 1)
                else some []) with
            | none => none
            | some eleft =>
              match checkedSub row.length 2 with
              | none => none
              | some clim =>
                match (if cidx ≤ clim then neighborEdge g cell.2 ridx (cidx + 1)
                    else some []) with
                | none => none
                | some eright => some (eup ++ edown ++ eleft ++ eright)

/-- All (row, column) pairs the nested `for ridx { for cidx }` loops of
`to_graph` visit, in row-major order, starting at row index `r0`. -/
def gridIndicesFrom : Nat → List (List (Location × Nat)) → List (Nat × Nat)
  | _, [] => []
  | r, row :: rest =>
    ((List.range row.length).map (fun c => (r, c))) ++ gridIndicesFrom (r + 1) rest

/-- The per-cell edge lists accumulated by `to_graph`, propagating a panic
(`none`) from any cell. -/
def collectCells (g : List (List (Location × Nat))) :
    List (Nat × Nat) → Option (List (List Edge))
  | [] => some []
  | rc :: rest =>
    match cellEdges g rc.1 rc.2 with
    | none => none
    | some es =>
      match collectCells g rest with
      | none => none
      | some rest' => some (es :: rest')

/-- Embeds `HeightMap::to_graph`; `none` models a panic (which happens for
one-row or one-column grids, see the bounds tests of `cellEdges`). -/
def HeightMap.to_graph (hm : HeightMap) : Option (List (List Edge)) :=
  collectCells hm.grid (gridIndicesFrom 0 hm.grid)

/-- Embeds `HeightMap::find_targets`: all stored locations with the given
elevation, in row-major order. -/
def HeightMap.find_targets (hm : HeightMap) (target : Nat) : List Location :=
  hm.grid.flatten.filterMap (fun lh => if lh.2 = target then some lh.1 else none)

/-- Rectangular grid: every row has width `w`. -/
def Rect (g : List (List (Location × Nat))) (w : Nat) : Prop :=
  ∀ row ∈ g, row.length = w

instance (g : List (List (Location × Nat))) (w : Nat) : Decidable (Rect g w) := by
  unfold Rect
  exact inferInstance

/-- The cell stored at (r, c), with a junk default outside the grid. -/
@[reducible] def cellAt (g : List (List (Location × Nat))) (r c : Nat) : Location × Nat :=
  (g.getD r []).getD c (Location.mk 0 (0, 0), 0)

/-- The elevation stored at (r, c). -/
@[reducible] def elevAt (g : List (List (Location × Nat))) (r c : Nat) : Nat :=
  (cellAt g r c).2

/-- The node identifier stored at (r, c). -/
@[reducible] def idxAt (g : List (List (Location × Nat))) (r c : Nat) : Nat :=
  (cellAt g r c).1.node_idx

/-- The stored node identifiers are the row-major cell numbers for width `w`,
as `read_heightmap` assigns them. -/
def RowMajorIdx (g : List (List (Location × Nat))) (w : Nat) : Prop :=
  ∀ r, r < g.length → ∀ c, c < w → idxAt g r c = r * w + c

instance (g : List (List (Location × Nat))) (w : Nat) : Decidable (RowMajorIdx g w) := by
  unfold RowMajorIdx
  exact inferInstance

/-- Grid 4-adjacency of two (row, column) coordinates. -/
def gridAdj (a b : Nat × Nat) : Prop :=
  (b.1 = a.1 + 1 ∧ b.2 = a.2) ∨ (a.1 = b.1 + 1 ∧ b.2 = a.2) ∨
  (b.1 = a.1 ∧ b.2 = a.2 + 1) ∨ (b.1 = a.1 ∧ a.2 = b.2 + 1)

instance (a b : Nat × Nat) : Decidable (gridAdj a b) := by
  unfold gridAdj
  exact inferInstance

/-! ### Access lemmas for the cell iteration -/

theorem collectCells_spec {g : List (List (Location × Nat))} :
    ∀ {l : List (Nat × Nat)} {res : List (List Edge)},
      collectCells g l = some res →
      res.length = l.length ∧
      ∀ (i : Nat) (rc : Nat × Nat), l[i]? = some rc →
        ∃ es, cellEdges g rc.1 rc.2 = some es ∧ res[i]? = some es := by
  intro l
  induction l with
  | nil =>
    intro res h
    rw [collectCells] at h
    cases h
    exact ⟨rfl, fun i rc h => by simp at h⟩
  | cons rc0 rest ih =>
    intro res h
    rw [collectCells] at h
    cases hc : cellEdges g rc0.1 rc0.2 with
    | none =>
      rw [hc] at h
      cases h
    | some es0 =>
      rw [hc] at h
      cases hrest : collectCells g rest with
      | none =>
        rw [hrest] at h
        cases h
      | some rest' =>
        rw [hrest] at h
        cases h
        obtain ⟨hlen, hget⟩ := ih hrest
        refine ⟨by simp [hlen], ?_⟩
        intro i rc hi
        cases i with
        | zero =>
          simp only [List.getElem?_cons_zero, Option.some.injEq] at hi
          subst hi
          exact ⟨es0, hc, by simp⟩
        | succ j =>
          simp only [List.getElem?_cons_succ] at hi ⊢
          exact hget j rc hi

theorem collectCells_mem {g : List (List (Location × Nat))} :
    ∀ {l : List (Nat × Nat)} {res : List (List Edge)},
      collectCells g l = some res →
      ∀ es ∈ res, ∃ rc ∈ l, cellEdges g rc.1 rc.2 = some es := by
  intro l
  induction l with
  | nil =>
    intro res h
    rw [collectCells] at h
    cases h
    intro es hes
    cases hes
  | cons rc0 rest ih =>
    intro res h
    rw [collectCells] at h
    cases hc : cellEdges g rc0.1 rc0.2 with
    | none =>
      rw [hc] at h
      cases h
    | some es0 =>
      rw [hc] at h
      cases hrest : collectCells g rest with
      | none =>
        rw [hrest] at h
        cases h
      | some rest' =>
        rw [hrest] at h
        cases h
        intro es hes
        rcases List.mem_cons.mp hes with rfl | hes
        · exact ⟨rc0, List.mem_cons_self .., hc⟩
        · obtain ⟨rc, hrc, hcell⟩ := ih hrest es hes
          exact ⟨rc, List.mem_cons_of_mem _ hrc, hcell⟩

theorem collectCells_none {g : List (List (Location × Nat))} :
    ∀ {l : List (Nat × Nat)} {rc : Nat × Nat}, rc ∈ l →
      cellEdges g rc.1 rc.2 = none → collectCells g l = none := by
  intro l
  induction l with
  | nil =>
    intro rc h
    cases h
  | cons rc0 rest ih =>
    intro rc hmem hnone
    rw [collectCells]
    rcases List.mem_cons.mp hmem with rfl | hmem
    · rw [hnone]
    · cases hc : cellEdges g rc0.1 rc0.2 with
      | none => rfl
      | some es0 => rw [ih hmem hnone]

theorem collectCells_isSome {g : List (List (Location × Nat))} :
    ∀ {l : List (Nat × Nat)},
      (∀ rc ∈ l, (cellEdges g rc.1 rc.2).isSome) → (collectCells g l).isSome := by
  intro l
  induction l with
  | nil =>
    intro _
    rw [collectCells]
    rfl
  | cons rc0 rest ih =>
    intro hall
    rw [collectCells]
    cases hc : cellEdges g rc0.1 rc0.2 with
    | none =>
      have := hall rc0 (List.mem_cons_self ..)
      rw [hc] at this
      cases this
    | some es0 =>
      have hrest := ih fun rc hrc => hall rc (List.mem_cons_of_mem _ hrc)
      cases hcc : collectCells g rest with
      | none =>
        rw [hcc] at hrest
        cases hrest
      | some rest' => rfl

theorem gridIndicesFrom_mem {w : Nat} :
    ∀ {g : List (List (Location × Nat))} (r0 : Nat), Rect g w →
      ∀ rc : Nat × Nat, rc ∈ gridIndicesFrom r0 g ↔
        ∃ r, r < g.length ∧ rc.1 = r0 + r ∧ rc.2 < w := by
  intro g
  induction g with
  | nil =>
    intro r0 _ rc
    rw [gridIndicesFrom]
    simp
  | cons row rest ih =>
    intro r0 hrect rc
    have hrow : row.length = w := hrect row (List.mem_cons_self ..)
    have hrest : Rect rest w := fun r hr => hrect r (List.mem_cons_of_mem _ hr)
    rw [gridIndicesFrom]
    simp only [List.mem_append, List.mem_map, List.mem_range]
    constructor
    · rintro (⟨c, hc, rfl⟩ | hmem)
      · exact ⟨0, by simp, by simp, by simpa [hrow] using hc⟩
      · obtain ⟨r, hr, h1, h2⟩ := (ih (r0 + 1) hrest rc).mp hmem
        exact ⟨r + 1, by simpa using hr, by omega, h2⟩
    · rintro ⟨r, hr, h1, h2⟩
      cases r with
      | zero =>
        left
        refine ⟨rc.2, by omega, ?_⟩
        have : rc.1 = r0 := by omega
        rw [← this]
      | succ r' =>
        right
        refine (ih (r0 + 1) hrest rc).mpr ⟨r', by simpa using hr, by omega, h2⟩

theorem gridIndicesFrom_get {w : Nat} :
    ∀ {g : List (List (Location × Nat))} (r0 : Nat), Rect g w →
      ∀ r c, r < g.length → c < w →
        (gridIndicesFrom r0 g)[r * w + c]? = some (r0 + r, c) := by
  intro g
  induction g with
  | nil =>
    intro r0 _ r c hr
    simp at hr
  | cons row rest ih =>
    intro r0 hrect r c hr hc
    have hrow : row.length = w := hrect row (List.mem_cons_self ..)
    have hrest : Rect rest w := fun rr hrr => hrect rr (List.mem_cons_of_mem _ hrr)
    have hmaplen : ((List.range row.length).map (fun c => (r0, c))).length = w := by
      simp [hrow]
    rw [gridIndicesFrom]
    cases r with
    | zero =>
      have hidx : 0 * w + c = c := by omega
      rw [hidx, List.getElem?_append, hmaplen, if_pos hc]
      simp [List.getElem?_range, hrow, hc]
    | succ r' =>
      have hidx : (r' + 1) * w + c = w + (r' * w + c) := by ring
      rw [hidx, List.getElem?_append, hmaplen, if_neg (by omega)]
      have hsub : w + (r' * w + c) - w = r' * w + c := by omega
      rw [hsub, ih (r0 + 1) hrest r' c (by simpa using hr) hc]
      have harith : r0 + 1 + r' = r0 + (r' + 1) := by omega
      rw [harith]

theorem gridIndicesFrom_length {w : Nat} :
    ∀ {g : List (List (Location × Nat))} (r0 : Nat), Rect g w →
      (gridIndicesFrom r0 g).length = g.length * w := by
  intro g
  induction g with
  | nil =>
    intro r0 _
    rw [gridIndicesFrom]
    simp
  | cons row rest ih =>
    intro r0 hrect
    have hrow : row.length = w := hrect row (List.mem_cons_self ..)
    have hrest : Rect rest w := fun rr hrr => hrect rr (List.mem_cons_of_mem _ hrr)
    rw [gridIndicesFrom]
    simp only [List.length_append, List.length_map, List.length_range, hrow,
      ih (r0 + 1) hrest, List.length_cons]
    ring

/-! ### Characterization of the per-cell edges -/

theorem getElem?_getD {g : List (List (Location × Nat))} {r : Nat} (hr : r < g.length) :
    g[r]? = some (g.getD r []) := by
  rw [List.getD_eq_getElem _ _ hr, List.getElem?_eq_getElem hr]

theorem getElem?_cellAt {g : List (List (Location × Nat))} {r c : Nat}
    (hc : c < (g.getD r []).length) : (g.getD r [])[c]? = some (cellAt g r c) := by
  rw [List.getElem?_eq_getElem hc]
  unfold cellAt
  rw [List.getD_eq_getElem _ _ hc]

theorem neighborEdge_eq {g : List (List (Location × Nat))} {w : Nat} (hrect : Rect g w)
    {r c : Nat} (hr : r < g.length) (hc : c < w) (curr : Nat) :
    neighborEdge g curr r c =
      some (if climbOK (elevAt g r c) curr then [Edge.mk (idxAt g r c) 1] else []) := by
  have hlen : (g.getD r []).length = w := by
    rw [List.getD_eq_getElem _ _ hr]
    exact hrect _ (List.getElem_mem hr)
  have hcell : (g.getD r [])[c]? = some (cellAt g r c) := getElem?_cellAt (by omega)
  unfold neighborEdge
  rw [getElem?_getD hr]
  simp only [hcell]

theorem cellEdges_some_bounds {g : List (List (Location × Nat))} {r c : Nat}
    {es : List Edge} (h : cellEdges g r c = some es) :
    2 ≤ g.length ∧ 2 ≤ (g.getD r []).length ∧ r < g.length ∧
      c < (g.getD r []).length := by
  unfold cellEdges at h
  split at h
  · cases h
  next row hrow =>
    split at h
    · cases h
    next cell hcell =>
      split at h
      · cases h
      next eup hup =>
        split at h
        · cases h
        next rlim hrs =>
          split at h
          · cases h
          next edown hdown =>
            split at h
            · cases h
            next eleft hleft =>
              split at h
              · cases h
              next clim hcs =>
                have hrlt : r < g.length := by
                  by_contra hcon
                  rw [List.getElem?_eq_none (Nat.le_of_not_lt hcon)] at hrow
                  cases hrow
                have hrowD : g.getD r [] = row := by
                  have hx := getElem?_getD hrlt
                  rw [hrow] at hx
                  exact (Option.some.inj hx).symm
                have hclt : c < row.length := by
                  by_contra hcon
                  rw [List.getElem?_eq_none (Nat.le_of_not_lt hcon)] at hcell
                  cases hcell
                have h2r : 2 ≤ g.length := by
                  unfold checkedSub at hrs
                  by_contra hcon
                  rw [if_neg hcon] at hrs
                  cases hrs
                have h2c : 2 ≤ row.length := by
                  unfold checkedSub at hcs
                  by_contra hcon
                  rw [if_neg hcon] at hcs
                  cases hcs
                rw [hrowD]
                exact ⟨h2r, h2c, hrlt, hclt⟩

theorem cellEdges_eq {g : List (List (Location × Nat))} {w : Nat} (hrect : Rect g w)
    (h2r : 2 ≤ g.length) (h2c : 2 ≤ w) {r c : Nat} (hr : r < g.length) (hc : c < w) :
    cellEdges g r c = some (
      (if 0 < r ∧ climbOK (elevAt g (r - 1) c) (elevAt g r c)
        then [Edge.mk (idxAt g (r - 1) c) 1] else []) ++
      (if r + 1 < g.length ∧ climbOK (elevAt g (r + 1) c) (elevAt g r c)
        then [Edge.mk (idxAt g (r + 1) c) 1] else []) ++
      (if 0 < c ∧ climbOK (elevAt g r (c - 1)) (elevAt g r c)
        then [Edge.mk (idxAt g r (c - 1)) 1] else []) ++
      (if c + 1 < w ∧ climbOK (elevAt g r (c + 1)) (elevAt g r c)
        then [Edge.mk (idxAt g r (c + 1)) 1] else [])) := by
  have hrowlen : (g.getD r []).length = w := by
    rw [List.getD_eq_getElem _ _ hr]
    exact hrect _ (List.getElem_mem hr)
  have hrlim : checkedSub g.length 2 = some (g.length - 2) := by
    unfold checkedSub
    rw [if_pos h2r]
  have hclim : checkedSub (g.getD r []).length 2 = some (w - 2) := by
    rw [hrowlen]
    unfold checkedSub
    rw [if_pos h2c]
  have hup : (if 0 < r then neighborEdge g (elevAt g r c) (r - 1) c else some []) =
      some (if 0 < r ∧ climbOK (elevAt g (r - 1) c) (elevAt g r c)
        then [Edge.mk (idxAt g (r - 1) c) 1] else []) := by
    by_cases h0 : 0 < r
    · rw [if_pos h0, neighborEdge_eq hrect (by omega) hc]
      by_cases hcl : climbOK (elevAt g (r - 1) c) (elevAt g r c)
      · rw [if_pos hcl, if_pos ⟨h0, hcl⟩]
      · rw [if_neg hcl, if_neg fun hand => hcl hand.2]
    · rw [if_neg h0, if_neg fun hand => h0 hand.1]
  have hdown : (if r ≤ g.length - 2 then neighborEdge g (elevAt g r c) (r + 1) c
      else some []) =
      some (if r + 1 < g.length ∧ climbOK (elevAt g (r + 1) c) (elevAt g r c)
        then [Edge.mk (idxAt g (r + 1) c) 1] else []) := by
    by_cases h0 : r ≤ g.length - 2
    · rw [if_pos h0, neighborEdge_eq hrect (by omega) hc]
      by_cases hcl : climbOK (elevAt g (r + 1) c) (elevAt g r c)
      · rw [if_pos hcl, if_pos ⟨by omega, hcl⟩]
      · rw [if_neg hcl, if_neg fun hand => hcl hand.2]
    · rw [if_neg h0, if_neg fun hand => h0 (by omega)]
  have hleft : (if 0 < c then neighborEdge g (elevAt g r c) r (c - 1) else some []) =
      some (if 0 < c ∧ climbOK (elevAt g r (c - 1)) (elevAt g r c)
        then [Edge.mk (idxAt g r (c - 1)) 1] else []) := by
    by_cases h0 : 0 < c
    · rw [if_pos h0, neighborEdge_eq hrect hr (by omega)]
      by_cases hcl : climbOK (elevAt g r (c - 1)) (elevAt g r c)
      · rw [if_pos hcl, if_pos ⟨h0, hcl⟩]
      · rw [if_neg hcl, if_neg fun hand => hcl hand.2]
    · rw [if_neg h0, if_neg fun hand => h0 hand.1]
  have hright : (if c ≤ w - 2 then neighborEdge g (elevAt g r c) r (c + 1)
      else some []) =
      some (if c + 1 < w ∧ climbOK (elevAt g r (c + 1)) (elevAt g r c)
        then [Edge.mk (idxAt g r (c + 1)) 1] else []) := by
    by_cases h0 : c ≤ w - 2
    · rw [if_pos h0, neighborEdge_eq hrect hr (by omega)]
      by_cases hcl : climbOK (elevAt g r (c + 1)) (elevAt g r c)
      · rw [if_pos hcl, if_pos ⟨by omega, hcl⟩]
      · rw [if_neg hcl, if_neg fun hand => hcl hand.2]
    · rw [if_neg h0, if_neg fun hand => h0 (by omega)]
  have hcell : (g.getD r [])[c]? = some (cellAt g r c) := getElem?_cellAt (by omega)
  unfold cellEdges
  rw [getElem?_getD hr]
  simp only [hcell, hup, hrlim, hdown, hleft, hclim, hright]

/-- Every edge a cell contributes goes to a grid-adjacent in-bounds cell that
satisfies the climb rule, with unit cost. -/
theorem cellEdges_mem {g : List (List (Location × Nat))} {w : Nat} (hrect : Rect g w)
    (h2r : 2 ≤ g.length) (h2c : 2 ≤ w) {r c : Nat} (hr : r < g.length) (hc : c < w)
    {es : List Edge} (hes : cellEdges g r c = some es) {e : Edge} (he : e ∈ es) :
    ∃ r' c', r' < g.length ∧ c' < w ∧ gridAdj (r, c) (r', c') ∧
      climbOK (elevAt g r' c') (elevAt g r c) ∧ e = Edge.mk (idxAt g r' c') 1 := by
  rw [cellEdges_eq hrect h2r h2c hr hc] at hes
  cases hes
  simp only [List.mem_append] at he
  rcases he with ((hup | hdown) | hleft) | hright
  · by_cases hcond : 0 < r ∧ climbOK (elevAt g (r - 1) c) (elevAt g r c)
    · rw [if_pos hcond] at hup
      simp only [List.mem_singleton] at hup
      subst hup
      exact ⟨r - 1, c, by omega, hc,
        Or.inr (Or.inl ⟨by omega, rfl⟩), hcond.2, rfl⟩
    · rw [if_neg hcond] at hup
      cases hup
  · by_cases hcond : r + 1 < g.length ∧ climbOK (elevAt g (r + 1) c) (elevAt g r c)
    · rw [if_pos hcond] at hdown
      simp only [List.mem_singleton] at hdown
      subst hdown
      exact ⟨r + 1, c, hcond.1, hc, Or.inl ⟨rfl, rfl⟩, hcond.2, rfl⟩
    · rw [if_neg hcond] at hdown
      cases hdown
  · by_cases hcond : 0 < c ∧ climbOK (elevAt g r (c - 1)) (elevAt g r c)
    · rw [if_pos hcond] at hleft
      simp only [List.mem_singleton] at hleft
      subst hleft
      exact ⟨r, c - 1, hr, by omega,
        Or.inr (Or.inr (Or.inr ⟨rfl, by omega⟩)), hcond.2, rfl⟩
    · rw [if_neg hcond] at hleft
      cases hleft
  · by_cases hcond : c + 1 < w ∧ climbOK (elevAt g r (c + 1)) (elevAt g r c)
    · rw [if_pos hcond] at hright
      simp only [List.mem_singleton] at hright
      subst hright
      exact ⟨r, c + 1, hr, hcond.1, Or.inr (Or.inr (Or.inl ⟨rfl, rfl⟩)), hcond.2, rfl⟩
    · rw [if_neg hcond] at hright
      cases hright

/-- Conversely, every grid-adjacent in-bounds cell that satisfies the climb
rule contributes its unit edge. -/
theorem cellEdges_mem_of {g : List (List (Location × Nat))} {w : Nat} (hrect : Rect g w)
    (h2r : 2 ≤ g.length) (h2c : 2 ≤ w) {r c : Nat} (hr : r < g.length) (hc : c < w)
    {es : List Edge} (hes : cellEdges g r c = some es) {r' c' : Nat}
    (hr' : r' < g.length) (hc' : c' < w) (hadj : gridAdj (r, c) (r', c'))
    (hcl : climbOK (elevAt g r' c') (elevAt g r c)) :
    Edge.mk (idxAt g r' c') 1 ∈ es := by
  rw [cellEdges_eq hrect h2r h2c hr hc] at hes
  cases hes
  simp only [List.mem_append]
  rcases hadj with ⟨h1, h2⟩ | ⟨h1, h2⟩ | ⟨h1, h2⟩ | ⟨h1, h2⟩
  · -- down neighbor: r' = r + 1, c' = c
    simp only at h1 h2
    subst h1
    subst h2
    refine Or.inl (Or.inl (Or.inr ?_))
    rw [if_pos ⟨hr', hcl⟩]
    exact List.mem_singleton.mpr rfl
  · -- up neighbor: r = r' + 1, c' = c
    simp only at h1 h2
    subst h2
    refine Or.inl (Or.inl (Or.inl ?_))
    have hrr : r - 1 = r' := by omega
    rw [if_pos ⟨by omega, by rw [hrr]; exact hcl⟩, hrr]
    exact List.mem_singleton.mpr rfl
  · -- right neighbor: r' = r, c' = c + 1
    simp only at h1 h2
    subst h1
    subst h2
    refine Or.inr ?_
    rw [if_pos ⟨hc', hcl⟩]
    exact List.mem_singleton.mpr rfl
  · -- left neighbor: r' = r, c = c' + 1
    simp only at h1 h2
    subst h1
    refine Or.inl (Or.inr ?_)
    have hcc : c - 1 = c' := by omega
    rw [if_pos ⟨by omega, by rw [hcc]; exact hcl⟩, hcc]
    exact List.mem_singleton.mpr rfl

/-! ### Structure of the whole graph -/

theorem to_graph_length {hm : HeightMap} {adj : List (List Edge)} {w : Nat}
    (hrect : Rect hm.grid w) (h : hm.to_graph = some adj) :
    adj.length = hm.grid.length * w := by
  unfold HeightMap.to_graph at h
  rw [(collectCells_spec h).1, gridIndicesFrom_length 0 hrect]

theorem to_graph_cell {hm : HeightMap} {adj : List (List Edge)} {w : Nat}
    (hrect : Rect hm.grid w) (h : hm.to_graph = some adj) {r c : Nat}
    (hr : r < hm.grid.length) (hc : c < w) :
    ∃ es, cellEdges hm.grid r c = some es ∧ adj[r * w + c]? = some es := by
  unfold HeightMap.to_graph at h
  obtain ⟨_, hget⟩ := collectCells_spec h
  obtain ⟨es, hes, hres⟩ := hget (r * w + c) (0 + r, c) (gridIndicesFrom_get 0 hrect r c hr hc)
  refine ⟨es, ?_, hres⟩
  simpa using hes

theorem to_graph_getD {hm : HeightMap} {adj : List (List Edge)} {w : Nat}
    (hrect : Rect hm.grid w) (h : hm.to_graph = some adj) {r c : Nat}
    (hr : r < hm.grid.length) (hc : c < w) :
    ∃ es, cellEdges hm.grid r c = some es ∧ adj.getD (r * w + c) [] = es := by
  obtain ⟨es, hes, hres⟩ := to_graph_cell hrect h hr hc
  refine ⟨es, hes, ?_⟩
  rw [List.getD_eq_getD_get?, List.get?_eq_getElem?, hres]
  rfl

/-- The graph built from a rectangular grid with row-major node identifiers is
well formed and carries only unit costs. -/
theorem to_graph_wf_unit {hm : HeightMap} {adj : List (List Edge)} {w : Nat}
    (hrect : Rect hm.grid w) (hidx : RowMajorIdx hm.grid w)
    (h : hm.to_graph = some adj) : WF adj ∧ UnitCost adj := by
  have hlen := to_graph_length hrect h
  have key : ∀ l ∈ adj, ∀ e ∈ l, e.node < adj.length ∧ e.cost = 1 := by
    intro l hl e he
    have h' := h
    unfold HeightMap.to_graph at h'
    obtain ⟨rc, hrc, hcell⟩ := collectCells_mem h' l hl
    obtain ⟨r, hrlt, hr1, hc2⟩ := (gridIndicesFrom_mem 0 hrect rc).mp hrc
    have hcell' : cellEdges hm.grid r rc.2 = some l := by
      rw [← hcell, hr1]
      simp
    obtain ⟨h2r, h2cr, _, _⟩ := cellEdges_some_bounds hcell'
    have h2c : 2 ≤ w := by
      have : (hm.grid.getD r []).length = w := by
        rw [List.getD_eq_getElem _ _ hrlt]
        exact hrect _ (List.getElem_mem hrlt)
      omega
    obtain ⟨r', c', hr', hc', _, _, he'⟩ :=
      cellEdges_mem hrect h2r h2c hrlt hc2 hcell' he
    subst he'
    constructor
    · show idxAt hm.grid r' c' < adj.length
      rw [hidx r' hr' c' hc', hlen]
      have hstep : r' * w + c' < (r' + 1) * w := by
        rw [Nat.succ_mul]
        omega
      exact Nat.lt_of_lt_of_le hstep (Nat.mul_le_mul_right w hr')
    · rfl
  exact ⟨fun l hl e he => (key l hl e he).1, fun l hl e he => (key l hl e he).2⟩

theorem rowMajor_inj {w r1 c1 r2 c2 : Nat} (hc1 : c1 < w) (hc2 : c2 < w)
    (h : r1 * w + c1 = r2 * w + c2) : r1 = r2 ∧ c1 = c2 := by
  rcases Nat.lt_trichotomy r1 r2 with hlt | heq | hgt
  · exfalso
    have := Nat.mul_le_mul_right w hlt
    rw [Nat.succ_mul] at this
    omega
  · subst heq
    omega
  · exfalso
    have := Nat.mul_le_mul_right w hgt
    rw [Nat.succ_mul] at this
    omega

/-- C2: in the graph produced from a rectangular HeightMap with row-major
node identifiers, for any two in-bounds grid-adjacent cells A = (r, c) and
B = (r', c'), a directed unit-cost edge A→B exists exactly when
elevation(B) - elevation(A) ≤ 1 (signed); and every edge out of A targets
some grid-adjacent in-bounds cell, so no edge connects non-adjacent cells. -/
theorem C2_to_graph_edge_iff (hm : HeightMap) (adj : List (List Edge)) (w : Nat)
    (hrect : Rect hm.grid w) (hidx : RowMajorIdx hm.grid w)
    (hsome : hm.to_graph = some adj) (r c r' c' : Nat)
    (hr : r < hm.grid.length) (hc : c < w) (hr' : r' < hm.grid.length) (hc' : c' < w) :
    (gridAdj (r, c) (r', c') →
      ((∃ e ∈ adj.getD (r * w + c) [], e.node = r' * w + c' ∧ e.cost = 1) ↔
        (elevAt hm.grid r' c' : Int) - (elevAt hm.grid r c : Int) ≤ 1)) ∧
    (∀ e ∈ adj.getD (r * w + c) [], ∃ r2 c2, r2 < hm.grid.length ∧ c2 < w ∧
      gridAdj (r, c) (r2, c2) ∧ e.node = r2 * w + c2) := by
  obtain ⟨es, hes, hgd⟩ := to_graph_getD hrect hsome hr hc
  obtain ⟨h2r, h2cr, _, _⟩ := cellEdges_some_bounds hes
  have h2c : 2 ≤ w := by
    have : (hm.grid.getD r []).length = w := by
      rw [List.getD_eq_getElem _ _ hr]
      exact hrect _ (List.getElem_mem hr)
    omega
  rw [hgd]
  constructor
  · intro hadj
    constructor
    · rintro ⟨e, hel, hnode, _⟩
      obtain ⟨r2, c2, hr2, hc2, hadj2, hcl2, he2⟩ :=
        cellEdges_mem hrect h2r h2c hr hc hes hel
      subst he2
      have hnode' : r2 * w + c2 = r' * w + c' := by
        rw [← hnode, hidx r2 hr2 c2 hc2]
      obtain ⟨hre, hce⟩ := rowMajor_inj hc2 hc' hnode'
      subst hre
      subst hce
      exact hcl2
    · intro hcl
      refine ⟨Edge.mk (idxAt hm.grid r' c') 1,
        cellEdges_mem_of hrect h2r h2c hr hc hes hr' hc' hadj hcl,
        ?_, rfl⟩
      exact hidx r' hr' c' hc'
  · intro e hel
    obtain ⟨r2, c2, hr2, hc2, hadj2, _, he2⟩ :=
      cellEdges_mem hrect h2r h2c hr hc hes hel
    subst he2
    exact ⟨r2, c2, hr2, hc2, hadj2, hidx r2 hr2 c2 hc2⟩

/-- Witness for C2 on the 2×2 grid with elevations [[7, 5], [6, 6]]: the
instance queried is the pair A = (0, 1) (elevation 5), B = (0, 0)
(elevation 7), where the iff decides that no edge A→B exists. -/
theorem C2_to_graph_edge_iff_witness :
    Rect (HeightMap.mk [[(⟨0, (0, 0)⟩, 7), (⟨1, (0, 1)⟩, 5)],
        [(⟨2, (1, 0)⟩, 6), (⟨3, (1, 1)⟩, 6)]]).grid 2 ∧
    RowMajorIdx (HeightMap.mk [[(⟨0, (0, 0)⟩, 7), (⟨1, (0, 1)⟩, 5)],
        [(⟨2, (1, 0)⟩, 6), (⟨3, (1, 1)⟩, 6)]]).grid 2 ∧
    (HeightMap.mk [[(⟨0, (0, 0)⟩, 7), (⟨1, (0, 1)⟩, 5)],
        [(⟨2, (1, 0)⟩, 6), (⟨3, (1, 1)⟩, 6)]]).to_graph =
      some [[⟨2, 1⟩, ⟨1, 1⟩], [⟨3, 1⟩], [⟨0, 1⟩, ⟨3, 1⟩], [⟨1, 1⟩, ⟨2, 1⟩]] ∧
    ((gridAdj (0, 1) (0, 0) →
      ((∃ e ∈ ([[⟨2, 1⟩, ⟨1, 1⟩], [⟨3, 1⟩], [⟨0, 1⟩, ⟨3, 1⟩],
          [⟨1, 1⟩, ⟨2, 1⟩]] : List (List Edge)).getD (0 * 2 + 1) [],
        e.node = 0 * 2 + 0 ∧ e.cost = 1) ↔
        (elevAt (HeightMap.mk [[(⟨0, (0, 0)⟩, 7), (⟨1, (0, 1)⟩, 5)],
          [(⟨2, (1, 0)⟩, 6), (⟨3, (1, 1)⟩, 6)]]).grid 0 0 : Int) -
          (elevAt (HeightMap.mk [[(⟨0, (0, 0)⟩, 7), (⟨1, (0, 1)⟩, 5)],
            [(⟨2, (1, 0)⟩, 6), (⟨3, (1, 1)⟩, 6)]]).grid 0 1 : Int) ≤ 1)) ∧
    (∀ e ∈ ([[⟨2, 1⟩, ⟨1, 1⟩], [⟨3, 1⟩], [⟨0, 1⟩, ⟨3, 1⟩],
        [⟨1, 1⟩, ⟨2, 1⟩]] : List (List Edge)).getD (0 * 2 + 1) [],
      ∃ r2 c2, r2 < (HeightMap.mk [[(⟨0, (0, 0)⟩, 7), (⟨1, (0, 1)⟩, 5)],
          [(⟨2, (1, 0)⟩, 6), (⟨3, (1, 1)⟩, 6)]]).grid.length ∧ c2 < 2 ∧
        gridAdj (0, 1) (r2, c2) ∧ e.node = r2 * 2 + c2)) :=
  ⟨by decide, by decide, by decide,
    C2_to_graph_edge_iff
      (HeightMap.mk [[(⟨0, (0, 0)⟩, 7), (⟨1, (0, 1)⟩, 5)],
        [(⟨2, (1, 0)⟩, 6), (⟨3, (1, 1)⟩, 6)]])
      [[⟨2, 1⟩, ⟨1, 1⟩], [⟨3, 1⟩], [⟨0, 1⟩, ⟨3, 1⟩], [⟨1, 1⟩, ⟨2, 1⟩]] 2
      (by decide) (by decide) (by decide) 0 1 0 0
      (by decide) (by decide) (by decide) (by decide)⟩

theorem gridIndicesFrom_nil_w0 {g : List (List (Location × Nat))}
    (hrect : Rect g 0) : ∀ r0, gridIndicesFrom r0 g = [] := by
  induction g with
  | nil =>
    intro r0
    rfl
  | cons row rest ih =>
    intro r0
    have hrow : row.length = 0 := hrect row (List.mem_cons_self ..)
    rw [gridIndicesFrom, hrow]
    simp only [List.range_zero, List.map_nil, List.nil_append]
    exact ih (fun rr hrr => hrect rr (List.mem_cons_of_mem _ hrr)) (r0 + 1)

/-- On a degenerate grid that has at least one cell but only one row or only
one column, the very first cell's bounds test underflows. -/
theorem cellEdges_none_degenerate {g : List (List (Location × Nat))} {w : Nat}
    (hrect : Rect g w) (hh : 0 < g.length) (hw : 0 < w)
    (hdeg : g.length = 1 ∨ w = 1) : cellEdges g 0 0 = none := by
  have hrowlen : (g.getD 0 []).length = w := by
    rw [List.getD_eq_getElem _ _ hh]
    exact hrect _ (List.getElem_mem hh)
  have hrow : g[0]? = some (g.getD 0 []) := getElem?_getD hh
  have hcell : (g.getD 0 [])[0]? = some (cellAt g 0 0) := getElem?_cellAt (by omega)
  have hup : (if 0 < 0 then neighborEdge g (cellAt g 0 0).2 (0 - 1) 0 else some []) =
      some [] := if_neg (by omega)
  rcases hdeg with h1 | w1
  · have hrs : checkedSub g.length 2 = none := by
      unfold checkedSub
      rw [if_neg (by omega)]
    unfold cellEdges
    rw [hrow]
    simp only [hcell, hup, hrs]
  · by_cases hrow2 : 2 ≤ g.length
    · have hrs : checkedSub g.length 2 = some (g.length - 2) := by
        unfold checkedSub
        rw [if_pos hrow2]
      have hdown : (if 0 ≤ g.length - 2 then
          neighborEdge g (cellAt g 0 0).2 (0 + 1) 0 else some []) =
          some (if climbOK (elevAt g (0 + 1) 0) (cellAt g 0 0).2
            then [Edge.mk (idxAt g (0 + 1) 0) 1] else []) := by
        rw [if_pos (Nat.zero_le _), neighborEdge_eq hrect (by omega) (by omega)]
      have hleft : (if 0 < 0 then neighborEdge g (cellAt g 0 0).2 0 (0 - 1)
          else some []) = some [] := if_neg (by omega)
      have hcs : checkedSub (g.getD 0 []).length 2 = none := by
        rw [hrowlen]
        unfold checkedSub
        rw [if_neg (by omega)]
      unfold cellEdges
      rw [hrow]
      simp only [hcell, hup, hrs, hdown, hleft, hcs]
    · have hrs : checkedSub g.length 2 = none := by
        unfold checkedSub
        rw [if_neg hrow2]
      unfold cellEdges
      rw [hrow]
      simp only [hcell, hup, hrs]

/-- C10: for a rectangular HeightMap, `to_graph` panics (modelled `none`)
exactly when the grid has at least one cell and exactly one row or exactly
one column: the `len - 2` unsigned bounds tests underflow there.  In
particular it is total for grids with at least two rows and two columns and
for grids with no cells. -/
theorem C10_to_graph_totality (hm : HeightMap) (w : Nat) (hrect : Rect hm.grid w) :
    hm.to_graph = none ↔
      (0 < hm.grid.length ∧ 0 < w ∧ (hm.grid.length = 1 ∨ w = 1)) := by
  constructor
  · intro hnone
    by_contra hcon
    have hcases : hm.grid.length = 0 ∨ w = 0 ∨ (2 ≤ hm.grid.length ∧ 2 ≤ w) := by
      by_cases h1 : hm.grid.length = 0
      · exact Or.inl h1
      · by_cases h2 : w = 0
        · exact Or.inr (Or.inl h2)
        · refine Or.inr (Or.inr ⟨?_, ?_⟩) <;> omega
    rcases hcases with h0 | w0 | ⟨h2r, h2c⟩
    · have : hm.grid = [] := List.length_eq_zero.mp h0
      unfold HeightMap.to_graph at hnone
      rw [this] at hnone
      cases hnone
    · unfold HeightMap.to_graph at hnone
      rw [gridIndicesFrom_nil_w0 (w0 ▸ hrect) 0] at hnone
      cases hnone
    · have hsome : (collectCells hm.grid (gridIndicesFrom 0 hm.grid)).isSome := by
        refine collectCells_isSome ?_
        intro rc hrc
        obtain ⟨r, hr, hr1, hc2⟩ := (gridIndicesFrom_mem 0 hrect rc).mp hrc
        have hr1' : rc.1 = r := by omega
        rw [hr1', cellEdges_eq hrect h2r h2c hr hc2]
        rfl
      unfold HeightMap.to_graph at hnone
      rw [hnone] at hsome
      cases hsome
  · rintro ⟨hh, hw, hdeg⟩
    unfold HeightMap.to_graph
    exact @collectCells_none hm.grid (gridIndicesFrom 0 hm.grid) (0, 0)
      ((gridIndicesFrom_mem 0 hrect (0, 0)).mpr ⟨0, hh, rfl, hw⟩)
      (cellEdges_none_degenerate hrect hh hw hdeg)

/-- Witness for C10 on the one-row two-column grid, where `to_graph` panics. -/
theorem C10_to_graph_totality_witness :
    Rect (HeightMap.mk [[(⟨0, (0, 0)⟩, 97), (⟨1, (0, 1)⟩, 98)]]).grid 2 ∧
    ((HeightMap.mk [[(⟨0, (0, 0)⟩, 97), (⟨1, (0, 1)⟩, 98)]]).to_graph = none ↔
      (0 < (HeightMap.mk [[(⟨0, (0, 0)⟩, 97), (⟨1, (0, 1)⟩, 98)]]).grid.length ∧
        0 < 2 ∧
        ((HeightMap.mk [[(⟨0, (0, 0)⟩, 97), (⟨1, (0, 1)⟩, 98)]]).grid.length = 1 ∨
          2 = 1))) :=
  ⟨by decide,
    C10_to_graph_totality (HeightMap.mk [[(⟨0, (0, 0)⟩, 97), (⟨1, (0, 1)⟩, 98)]]) 2
      (by decide)⟩

/-! ### Reading the height map from text rows -/

/-- Error raised by `read_heightmap`: the `anyhow!` message "Expected all
ASCII alphabetic types, got {c}" carrying the offending character.  (The
`IOError` of the file read belongs to the external collaborator and is not
modelled; the input below is the already-read list of lines.) -/
inductive RError where
  | FormatError (c : Char)
deriving DecidableEq, Repr

/-- Character loop of `read_heightmap` for one line: threads the mutable
`node_idx` counter and the `start_loc`/`end_loc` registers, and builds the
row in order.  `'S'` is stored with elevation `b'a' = 97`, `'E'` with
`b'z' = 122`, any other letter with its own code (`c as u8`). -/
def readRow (ridx : Nat) :
    List Char → Nat → Nat → Location → Location →
      Except RError (List (Location × Nat) × Nat × Location × Location)
  | [], _cidx, node, s, e => .ok ([], node, s, e)
  | ch :: cs, cidx, node, s, e =>
    if ¬ ch.isAlpha then .error (.FormatError ch)
    else if ch = 'S' then
      match readRow ridx cs (cidx + 1) (node + 1) ⟨node, (ridx, cidx)⟩ e with
      | .error er => .error er
      | .ok (row, node1, s2, e2) => .ok ((⟨node, (ridx, cidx)⟩, 97) :: row, node1, s2, e2)
    else if ch = 'E' then
      match readRow ridx cs (cidx + 1) (node + 1) s ⟨node, (ridx, cidx)⟩ with
      | .error er => .error er
      | .ok (row, node1, s2, e2) =>
        .ok ((⟨node, (ridx, cidx)⟩, 122) :: row, node1, s2, e2)
    else
      match readRow ridx cs (cidx + 1) (node + 1) s e with
      | .error er => .error er
      | .ok (row, node1, s2, e2) =>
        .ok ((⟨node, (ridx, cidx)⟩, ch.toNat) :: row, node1, s2, e2)

/-- Line loop of `read_heightmap`. -/
def readRows :
    List (List Char) → Nat → Nat → Location → Location →
      Except RError (List (List (Location × Nat)) × Location × Location)
  | [], _ridx, _node, s, e => .ok ([], s, e)
  | line :: rest, ridx, node, s, e =>
    match readRow ridx line 0 node s e with
    | .error er => .error er
    | .ok (row, node1, s1, e1) =>
      match readRows rest (ridx + 1) node1 s1 e1 with
      | .error er => .error er
      | .ok (grid, s2, e2) => .ok (row :: grid, s2, e2)

/-- Embeds `read_heightmap` on an already-read list of lines: both marker
locations start at the default `Location::new(0, (0, 0))` and node indices
count up from 0 in row-major order. -/
def read_heightmap (input : List (List Char)) :
    Except RError (Location × Location × HeightMap) :=
  match readRows input 0 0 ⟨0, (0, 0)⟩ ⟨0, (0, 0)⟩ with
  | .error er => .error er
  | .ok (grid, s, e) => .ok (s, e, HeightMap.mk grid)

/-- The elevation `read_heightmap` stores for an input character. -/
def elevOf (ch : Char) : Nat :=
  if ch = 'S' then 97 else if ch = 'E' then 122 else ch.toNat

theorem alpha_code {ch : Char} (h : ch.isAlpha = true) :
    (65 ≤ ch.toNat ∧ ch.toNat ≤ 90) ∨ (97 ≤ ch.toNat ∧ ch.toNat ≤ 122) := by
  unfold Char.isAlpha Char.isUpper Char.isLower at h
  simp only [Bool.or_eq_true, Bool.and_eq_true, decide_eq_true_eq] at h
  rcases h with ⟨h1, h2⟩ | ⟨h1, h2⟩
  · exact Or.inl ⟨UInt32.le_toNat_of_le (by norm_num) h1,
      UInt32.toNat_le_of_le (by norm_num) h2⟩
  · exact Or.inr ⟨UInt32.le_toNat_of_le (by norm_num) h1,
      UInt32.toNat_le_of_le (by norm_num) h2⟩

/-- Full characterization of a successful `readRow` call: the result row
mirrors the line position by position with `elevOf` elevations, node indices
advance by the line length, every consumed character is alphabetic, and the
marker registers change only when the corresponding marker occurs. -/
theorem readRow_spec (ridx : Nat) :
    ∀ (ln : List Char) (cidx node : Nat) (s e : Location)
      (row : List (Location × Nat)) (node1 : Nat) (s1 e1 : Location),
      readRow ridx ln cidx node s e = .ok (row, node1, s1, e1) →
      row.length = ln.length ∧ node1 = node + ln.length ∧
      (∀ ch ∈ ln, ch.isAlpha = true) ∧
      (∀ (j : Nat) (ch : Char), ln[j]? = some ch →
        ∃ loc, row[j]? = some (loc, elevOf ch)) ∧
      (∀ cell ∈ row, ∃ ch, ch.isAlpha = true ∧ cell.2 = elevOf ch) ∧
      ('S' ∉ ln → s1 = s) ∧ ('E' ∉ ln → e1 = e) := by
  intro ln
  induction ln with
  | nil =>
    intro cidx node s e row node1 s1 e1 h
    rw [readRow] at h
    cases h
    refine ⟨rfl, by simp, ?_, ?_, ?_, fun _ => rfl, fun _ => rfl⟩
    · intro ch hch
      cases hch
    · intro j ch hch
      simp at hch
    · intro cell hcell
      cases hcell
  | cons ch cs ih =>
    intro cidx node s e row node1 s1 e1 h
    rw [readRow] at h
    by_cases halpha : ch.isAlpha = true
    · rw [if_neg (by simp [halpha])] at h
      by_cases hS : ch = 'S'
      · rw [if_pos hS] at h
        cases hrec : readRow ridx cs (cidx + 1) (node + 1) ⟨node, (ridx, cidx)⟩ e with
        | error er =>
          rw [hrec] at h
          cases h
        | ok out =>
          obtain ⟨row', node1', s2, e2⟩ := out
          rw [hrec] at h
          cases h
          obtain ⟨hlen, hnode, hall, hidx2, hmem, hSp, hEp⟩ :=
            ih (cidx + 1) (node + 1) ⟨node, (ridx, cidx)⟩ e _ _ _ _ hrec
          refine ⟨by simp [hlen], by simp [hnode]; omega, ?_, ?_, ?_, ?_, ?_⟩
          · intro c hc
            rcases List.mem_cons.mp hc with rfl | hc
            · exact halpha
            · exact hall c hc
          · intro j c hc
            cases j with
            | zero =>
              simp only [List.getElem?_cons_zero, Option.some.injEq] at hc
              subst hc
              refine ⟨⟨node, (ridx, cidx)⟩, ?_⟩
              rw [hS]
              simp [elevOf]
            | succ j' =>
              simp only [List.getElem?_cons_succ] at hc ⊢
              exact hidx2 j' c hc
          · intro cell hcell
            rcases List.mem_cons.mp hcell with rfl | hcell
            · exact ⟨'S', by decide, by simp [elevOf]⟩
            · exact hmem cell hcell
          · intro hno
            exact absurd (hS ▸ List.mem_cons_self ..) hno
          · intro hno
            exact hEp fun hc => hno (List.mem_cons_of_mem _ hc)
      · rw [if_neg hS] at h
        by_cases hE : ch = 'E'
        · rw [if_pos hE] at h
          cases hrec : readRow ridx cs (cidx + 1) (node + 1) s ⟨node, (ridx, cidx)⟩ with
          | error er =>
            rw [hrec] at h
            cases h
          | ok out =>
            obtain ⟨row', node1', s2, e2⟩ := out
            rw [hrec] at h
            cases h
            obtain ⟨hlen, hnode, hall, hidx2, hmem, hSp, hEp⟩ :=
              ih (cidx + 1) (node + 1) s ⟨node, (ridx, cidx)⟩ _ _ _ _ hrec
            refine ⟨by simp [hlen], by simp [hnode]; omega, ?_, ?_, ?_, ?_, ?_⟩
            · intro c hc
              rcases List.mem_cons.mp hc with rfl | hc
              · exact halpha
              · exact hall c hc
            · intro j c hc
              cases j with
              | zero =>
                simp only [List.getElem?_cons_zero, Option.some.injEq] at hc
                subst hc
                refine ⟨⟨node, (ridx, cidx)⟩, ?_⟩
                rw [hE]
                simp [elevOf]
              | succ j' =>
                simp only [List.getElem?_cons_succ] at hc ⊢
                exact hidx2 j' c hc
            · intro cell hcell
              rcases List.mem_cons.mp hcell with rfl | hcell
              · exact ⟨'E', by decide, by simp [elevOf]⟩
              · exact hmem cell hcell
            · intro hno
              exact hSp fun hc => hno (List.mem_cons_of_mem _ hc)
            · intro hno
              exact absurd (hE ▸ List.mem_cons_self ..) hno
        · rw [if_neg hE] at h
          cases hrec : readRow ridx cs (cidx + 1) (node + 1) s e with
          | error er =>
            rw [hrec] at h
            cases h
          | ok out =>
            obtain ⟨row', node1', s2, e2⟩ := out
            rw [hrec] at h
            cases h
            obtain ⟨hlen, hnode, hall, hidx2, hmem, hSp, hEp⟩ :=
              ih (cidx + 1) (node + 1) s e _ _ _ _ hrec
            refine ⟨by simp [hlen], by simp [hnode]; omega, ?_, ?_, ?_, ?_, ?_⟩
            · intro c hc
              rcases List.mem_cons.mp hc with rfl | hc
              · exact halpha
              · exact hall c hc
            · intro j c hc
              cases j with
              | zero =>
                simp only [List.getElem?_cons_zero, Option.some.injEq] at hc
                subst hc
                refine ⟨⟨node, (ridx, cidx)⟩, ?_⟩
                simp [elevOf, hS, hE]
              | succ j' =>
                simp only [List.getElem?_cons_succ] at hc ⊢
                exact hidx2 j' c hc
            · intro cell hcell
              rcases List.mem_cons.mp hcell with rfl | hcell
              · exact ⟨ch, halpha, by simp [elevOf, hS, hE]⟩
              · exact hmem cell hcell
            · intro hno
              exact hSp fun hc => hno (List.mem_cons_of_mem _ hc)
            · intro hno
              exact hEp fun hc => hno (List.mem_cons_of_mem _ hc)
    · rw [if_pos (by simpa using halpha)] at h
      cases h

theorem readRow_ok (ridx : Nat) :
    ∀ (line : List Char) (cidx node : Nat) (s e : Location),
      (∀ ch ∈ line, ch.isAlpha = true) →
      ∃ out, readRow ridx line cidx node s e = .ok out := by
  intro line
  induction line with
  | nil =>
    intro cidx node s e _
    exact ⟨([], node, s, e), rfl⟩
  | cons ch cs ih =>
    intro cidx node s e hall
    have halpha : ch.isAlpha = true := hall ch (List.mem_cons_self ..)
    have hrest := fun c hc => hall c (List.mem_cons_of_mem _ hc)
    rw [readRow, if_neg (by simp [halpha])]
    by_cases hS : ch = 'S'
    · rw [if_pos hS]
      obtain ⟨⟨row, node1, s2, e2⟩, hout⟩ :=
        ih (cidx + 1) (node + 1) ⟨node, (ridx, cidx)⟩ e hrest
      rw [hout]
      exact ⟨_, rfl⟩
    · rw [if_neg hS]
      by_cases hE : ch = 'E'
      · rw [if_pos hE]
        obtain ⟨⟨row, node1, s2, e2⟩, hout⟩ :=
          ih (cidx + 1) (node + 1) s ⟨node, (ridx, cidx)⟩ hrest
        rw [hout]
        exact ⟨_, rfl⟩
      · rw [if_neg hE]
        obtain ⟨⟨row, node1, s2, e2⟩, hout⟩ := ih (cidx + 1) (node + 1) s e hrest
        rw [hout]
        exact ⟨_, rfl⟩

theorem readRow_error (ridx : Nat) :
    ∀ (line : List Char) (cidx node : Nat) (s e : Location) (er : RError),
      readRow ridx line cidx node s e = .error er →
      ∃ c, er = .FormatError c ∧ c ∈ line ∧ c.isAlpha = false := by
  intro line
  induction line with
  | nil =>
    intro cidx node s e er h
    rw [readRow] at h
    cases h
  | cons ch cs ih =>
    intro cidx node s e er h
    rw [readRow] at h
    by_cases halpha : ch.isAlpha = true
    · rw [if_neg (by simp [halpha])] at h
      by_cases hS : ch = 'S'
      · rw [if_pos hS] at h
        cases hrec : readRow ridx cs (cidx + 1) (node + 1) ⟨node, (ridx, cidx)⟩ e with
        | error er' =>
          rw [hrec] at h
          cases h
          obtain ⟨c, hc1, hc2, hc3⟩ := ih (cidx + 1) (node + 1) ⟨node, (ridx, cidx)⟩ e er hrec
          exact ⟨c, hc1, List.mem_cons_of_mem _ hc2, hc3⟩
        | ok out =>
          obtain ⟨row', node1', s2, e2⟩ := out
          rw [hrec] at h
          cases h
      · rw [if_neg hS] at h
        by_cases hE : ch = 'E'
        · rw [if_pos hE] at h
          cases hrec : readRow ridx cs (cidx + 1) (node + 1) s ⟨node, (ridx, cidx)⟩ with
          | error er' =>
            rw [hrec] at h
            cases h
            obtain ⟨c, hc1, hc2, hc3⟩ :=
              ih (cidx + 1) (node + 1) s ⟨node, (ridx, cidx)⟩ er hrec
            exact ⟨c, hc1, List.mem_cons_of_mem _ hc2, hc3⟩
          | ok out =>
            obtain ⟨row', node1', s2, e2⟩ := out
            rw [hrec] at h
            cases h
        · rw [if_neg hE] at h
          cases hrec : readRow ridx cs (cidx + 1) (node + 1) s e with
          | error er' =>
            rw [hrec] at h
            cases h
            obtain ⟨c, hc1, hc2, hc3⟩ := ih (cidx + 1) (node + 1) s e er hrec
            exact ⟨c, hc1, List.mem_cons_of_mem _ hc2, hc3⟩
          | ok out =>
            obtain ⟨row', node1', s2, e2⟩ := out
            rw [hrec] at h
            cases h
    · rw [if_pos (by simpa using halpha)] at h
      cases h
      exact ⟨ch, rfl, List.mem_cons_self .., by simpa using halpha⟩

/-- Full characterization of a successful `readRows` call. -/
theorem readRows_spec :
    ∀ (input : List (List Char)) (ridx node : Nat) (s e : Location)
      (grid : List (List (Location × Nat))) (s1 e1 : Location),
      readRows input ridx node s e = .ok (grid, s1, e1) →
      grid.length = input.length ∧
      (∀ ln ∈ input, ∀ ch ∈ ln, ch.isAlpha = true) ∧
      (∀ (i : Nat) (ln : List Char), input[i]? = some ln →
        ∃ row, grid[i]? = some row ∧ row.length = ln.length ∧
          ∀ (j : Nat) (ch : Char), ln[j]? = some ch →
            ∃ loc, row[j]? = some (loc, elevOf ch)) ∧
      (∀ row ∈ grid, ∀ cell ∈ row, ∃ ch, ch.isAlpha = true ∧ cell.2 = elevOf ch) ∧
      ((∀ ln ∈ input, 'S' ∉ ln) → s1 = s) ∧
      ((∀ ln ∈ input, 'E' ∉ ln) → e1 = e) := by
  intro input
  induction input with
  | nil =>
    intro ridx node s e grid s1 e1 h
    rw [readRows] at h
    cases h
    refine ⟨rfl, ?_, ?_, ?_, fun _ => rfl, fun _ => rfl⟩
    · intro ln hln
      cases hln
    · intro i ln hln
      simp at hln
    · intro row hrow
      cases hrow
  | cons ln rest ih =>
    intro ridx node s e grid s1 e1 h
    rw [readRows] at h
    split at h
    · cases h
    next row node1 sA eA hrow =>
      split at h
      · cases h
      next grid' sB eB hrest =>
        cases h
        obtain ⟨hlen, _, hall, hidx2, hmem, hSp, hEp⟩ :=
          readRow_spec ridx ln 0 node s e _ _ _ _ hrow
        obtain ⟨glen, gall, gidx, gmem, gSp, gEp⟩ :=
          ih (ridx + 1) node1 sA eA _ _ _ hrest
        refine ⟨by simp [glen], ?_, ?_, ?_, ?_, ?_⟩
        · intro ln' hln'
          rcases List.mem_cons.mp hln' with rfl | hln'
          · exact hall
          · exact gall ln' hln'
        · intro i ln' hln'
          cases i with
          | zero =>
            simp only [List.getElem?_cons_zero, Option.some.injEq] at hln'
            subst hln'
            exact ⟨row, by simp, hlen, hidx2⟩
          | succ i' =>
            simp only [List.getElem?_cons_succ] at hln' ⊢
            exact gidx i' ln' hln'
        · intro row' hrow' cell hcell
          rcases List.mem_cons.mp hrow' with rfl | hrow'
          · exact hmem cell hcell
          · exact gmem row' hrow' cell hcell
        · intro hno
          rw [gSp fun l hl => hno l (List.mem_cons_of_mem _ hl)]
          exact hSp (hno ln (List.mem_cons_self ..))
        · intro hno
          rw [gEp fun l hl => hno l (List.mem_cons_of_mem _ hl)]
          exact hEp (hno ln (List.mem_cons_self ..))

theorem readRows_ok :
    ∀ (input : List (List Char)) (ridx node : Nat) (s e : Location),
      (∀ ln ∈ input, ∀ ch ∈ ln, ch.isAlpha = true) →
      ∃ out, readRows input ridx node s e = .ok out := by
  intro input
  induction input with
  | nil =>
    intro ridx node s e _
    exact ⟨([], s, e), rfl⟩
  | cons ln rest ih =>
    intro ridx node s e hall
    obtain ⟨⟨row, node1, sA, eA⟩, hrow⟩ :=
      readRow_ok ridx ln 0 node s e (hall ln (List.mem_cons_self ..))
    obtain ⟨⟨grid, sB, eB⟩, hrest⟩ :=
      ih (ridx + 1) node1 sA eA fun l hl => hall l (List.mem_cons_of_mem _ hl)
    refine ⟨(row :: grid, sB, eB), ?_⟩
    rw [readRows, hrow]
    simp only [hrest]

theorem readRows_error :
    ∀ (input : List (List Char)) (ridx node : Nat) (s e : Location) (er : RError),
      readRows input ridx node s e = .error er →
      ∃ c, er = .FormatError c ∧ (∃ ln ∈ input, c ∈ ln) ∧ c.isAlpha = false := by
  intro input
  induction input with
  | nil =>
    intro ridx node s e er h
    rw [readRows] at h
    cases h
  | cons ln rest ih =>
    intro ridx node s e er h
    rw [readRows] at h
    split at h
    next er' hrow =>
      cases h
      obtain ⟨c, hc1, hc2, hc3⟩ := readRow_error ridx ln 0 node s e er hrow
      exact ⟨c, hc1, ⟨ln, List.mem_cons_self .., hc2⟩, hc3⟩
    next row node1 sA eA hrow =>
      split at h
      next er' hrest =>
        cases h
        obtain ⟨c, hc1, ⟨l, hl, hcl⟩, hc3⟩ := ih (ridx + 1) node1 sA eA er hrest
        exact ⟨c, hc1, ⟨l, List.mem_cons_of_mem _ hl, hcl⟩, hc3⟩
      next grid' sB eB hrest => cases h

/-- C5: `read_heightmap` succeeds when every input character is an ASCII
letter, and on any input containing a non-letter it fails with a
`FormatError` naming an offending (non-letter, present) character. -/
theorem C5_alphabetic_validation (input : List (List Char)) :
    ((∀ ln ∈ input, ∀ ch ∈ ln, ch.isAlpha = true) →
      ∃ out, read_heightmap input = .ok out) ∧
    ((∃ ln ∈ input, ∃ ch ∈ ln, ch.isAlpha = false) →
      ∃ c, read_heightmap input = .error (.FormatError c) ∧
        (∃ ln ∈ input, c ∈ ln) ∧ c.isAlpha = false) := by
  constructor
  · intro hall
    obtain ⟨⟨grid, s1, e1⟩, hok⟩ := readRows_ok input 0 0 ⟨0, (0, 0)⟩ ⟨0, (0, 0)⟩ hall
    unfold read_heightmap
    rw [hok]
    exact ⟨_, rfl⟩
  · rintro ⟨ln, hln, ch, hch, hbad⟩
    unfold read_heightmap
    cases hres : readRows input 0 0 ⟨0, (0, 0)⟩ ⟨0, (0, 0)⟩ with
    | ok out =>
      obtain ⟨grid, s1, e1⟩ := out
      obtain ⟨_, hall, _⟩ := readRows_spec input 0 0 _ _ _ _ _ hres
      rw [hall ln hln ch hch] at hbad
      cases hbad
    | error er =>
      obtain ⟨c, rfl, hcmem, hcbad⟩ := readRows_error input 0 0 _ _ er hres
      exact ⟨c, rfl, hcmem, hcbad⟩

/-- Witness for C5 on the input `["a1"]`. -/
theorem C5_alphabetic_validation_witness :
    (∃ ln ∈ [['a', '1']], ∃ ch ∈ ln, ch.isAlpha = false) ∧
    (∃ c, read_heightmap [['a', '1']] = .error (.FormatError c) ∧
      (∃ ln ∈ [['a', '1']], c ∈ ln) ∧ c.isAlpha = false) :=
  ⟨by decide, (C5_alphabetic_validation [['a', '1']]).2 (by decide)⟩

/-- C3 (amended): `read_heightmap` performs no marker validation: on any
all-alphabetic input it succeeds, and an absent 'S' (resp. 'E') simply
leaves the returned start (resp. end) location at the initialized default
`Location::new(0, (0, 0))`. -/
theorem C3_no_marker_validation (input : List (List Char))
    (halpha : ∀ ln ∈ input, ∀ ch ∈ ln, ch.isAlpha = true) :
    ∃ s e hm, read_heightmap input = .ok (s, e, hm) ∧
      ((∀ ln ∈ input, 'S' ∉ ln) → s = ⟨0, (0, 0)⟩) ∧
      ((∀ ln ∈ input, 'E' ∉ ln) → e = ⟨0, (0, 0)⟩) := by
  obtain ⟨⟨grid, s1, e1⟩, hok⟩ := readRows_ok input 0 0 ⟨0, (0, 0)⟩ ⟨0, (0, 0)⟩ halpha
  obtain ⟨_, _, _, _, hSp, hEp⟩ := readRows_spec input 0 0 _ _ _ _ _ hok
  refine ⟨s1, e1, HeightMap.mk grid, ?_, hSp, hEp⟩
  unfold read_heightmap
  rw [hok]

/-- Witness for C3 on the marker-free input `["ab"]`. -/
theorem C3_no_marker_validation_witness :
    (∀ ln ∈ [['a', 'b']], ∀ ch ∈ ln, ch.isAlpha = true) ∧
    (∃ s e hm, read_heightmap [['a', 'b']] = .ok (s, e, hm) ∧
      ((∀ ln ∈ [['a', 'b']], 'S' ∉ ln) → s = ⟨0, (0, 0)⟩) ∧
      ((∀ ln ∈ [['a', 'b']], 'E' ∉ ln) → e = ⟨0, (0, 0)⟩)) :=
  ⟨by decide, C3_no_marker_validation [['a', 'b']] (by decide)⟩

/-- Counterexample to C3 as stated: the input `["ab"]` has neither marker,
yet `read_heightmap` returns `Ok` (with both locations defaulted to node 0
at (0, 0)) instead of raising a `FormatError`. -/
theorem C3_missing_marker_counterexample :
    (∀ ln ∈ [['a', 'b']], 'S' ∉ ln ∧ 'E' ∉ ln) ∧
    read_heightmap [['a', 'b']] =
      .ok (⟨0, (0, 0)⟩, ⟨0, (0, 0)⟩,
        HeightMap.mk [[(⟨0, (0, 0)⟩, 97), (⟨1, (0, 1)⟩, 98)]]) :=
  ⟨by decide, rfl⟩

/-- C4 (amended): every stored elevation is the ASCII code of an ASCII
letter (65–90 or 97–122), and position by position the stored elevation is
97 (the code of 'a') for 'S', 122 (the code of 'z') for 'E', and the
character's own code otherwise. -/
theorem C4_elevation_characterization (input : List (List Char)) (s e : Location)
    (hm : HeightMap) (h : read_heightmap input = .ok (s, e, hm)) :
    (∀ cell ∈ hm.grid.flatten,
      (65 ≤ cell.2 ∧ cell.2 ≤ 90) ∨ (97 ≤ cell.2 ∧ cell.2 ≤ 122)) ∧
    (∀ (i : Nat) (ln : List Char), input[i]? = some ln →
      ∃ row, hm.grid[i]? = some row ∧
        ∀ (j : Nat) (ch : Char), ln[j]? = some ch →
          ∃ loc, row[j]? = some (loc,
            if ch = 'S' then 97 else if ch = 'E' then 122 else ch.toNat)) := by
  unfold read_heightmap at h
  cases hres : readRows input 0 0 ⟨0, (0, 0)⟩ ⟨0, (0, 0)⟩ with
  | error er =>
    rw [hres] at h
    cases h
  | ok out =>
    obtain ⟨grid, s1, e1⟩ := out
    rw [hres] at h
    cases h
    obtain ⟨_, _, gidx, gmem, _, _⟩ := readRows_spec input 0 0 _ _ _ _ _ hres
    constructor
    · intro cell hcell
      rw [List.mem_flatten] at hcell
      obtain ⟨row, hrowmem, hcellmem⟩ := hcell
      obtain ⟨ch, hch, hcv⟩ := gmem row hrowmem cell hcellmem
      rw [hcv]
      unfold elevOf
      by_cases hS : ch = 'S'
      · rw [if_pos hS]
        exact Or.inr ⟨by omega, by omega⟩
      · rw [if_neg hS]
        by_cases hE : ch = 'E'
        · rw [if_pos hE]
          exact Or.inr ⟨by omega, by omega⟩
        · rw [if_neg hE]
          exact alpha_code hch
    · intro i ln hln
      obtain ⟨row, hrow, _, hcells⟩ := gidx i ln hln
      refine ⟨row, hrow, ?_⟩
      intro j ch hch
      obtain ⟨loc, hloc⟩ := hcells j ch hch
      exact ⟨loc, hloc⟩

/-- Witness for C4 on the input `["SE"]`. -/
theorem C4_elevation_characterization_witness :
    read_heightmap [['S', 'E']] =
      .ok (⟨0, (0, 0)⟩, ⟨1, (0, 1)⟩,
        HeightMap.mk [[(⟨0, (0, 0)⟩, 97), (⟨1, (0, 1)⟩, 122)]]) ∧
    ((∀ cell ∈ (HeightMap.mk [[(⟨0, (0, 0)⟩, 97), (⟨1, (0, 1)⟩, 122)]]).grid.flatten,
      (65 ≤ cell.2 ∧ cell.2 ≤ 90) ∨ (97 ≤ cell.2 ∧ cell.2 ≤ 122)) ∧
    (∀ (i : Nat) (ln : List Char), [['S', 'E']][i]? = some ln →
      ∃ row, (HeightMap.mk [[(⟨0, (0, 0)⟩, 97), (⟨1, (0, 1)⟩, 122)]]).grid[i]? =
          some row ∧
        ∀ (j : Nat) (ch : Char), ln[j]? = some ch →
          ∃ loc, row[j]? = some (loc,
            if ch = 'S' then 97 else if ch = 'E' then 122 else ch.toNat))) :=
  ⟨rfl, C4_elevation_characterization [['S', 'E']] ⟨0, (0, 0)⟩ ⟨1, (0, 1)⟩
    (HeightMap.mk [[(⟨0, (0, 0)⟩, 97), (⟨1, (0, 1)⟩, 122)]]) rfl⟩

/-- Counterexample to C4 as stated: on the input `["Sa"]` the produced
HeightMap stores elevation 97 (the code of 'a'), not a value in [0, 25] and
not 0 at the 'S' cell. -/
theorem C4_elevation_counterexample :
    read_heightmap [['S', 'a']] =
      .ok (⟨0, (0, 0)⟩, ⟨0, (0, 0)⟩,
        HeightMap.mk [[(⟨0, (0, 0)⟩, 97), (⟨1, (0, 1)⟩, 97)]]) ∧
    ¬ (97 ≤ 25) :=
  ⟨rfl, by decide⟩

/-! ### The multi-source query of part two -/

/-- Embeds the part-two reduction of `main`: run `shortest_path` once per
candidate start location, discard the "no path" candidates, and take the
minimum.  (`main` then calls `.unwrap()`, panicking when every candidate is
unreachable; the `Option` result models that outcome.) -/
def multiSourceMin (adj : List (List Edge)) (starts : List Location) (target : Nat) :
    Option Nat :=
  (starts.filterMap (fun l => shortest_path adj l.node_idx target)).min?

/-- C8: whenever the start location is itself among the minimum-elevation
candidates returned by `find_targets b'a'` (as it always is, since
`read_heightmap` stores the 'S' cell with elevation `b'a' = 97`), and the
plain start-to-end query returns a distance, the multi-source minimum is
defined and no larger than that distance. -/
theorem C8_multi_source_le (adj : List (List Edge)) (hm : HeightMap)
    (sLoc : Location) (target d : Nat)
    (hmem : sLoc ∈ hm.find_targets 97)
    (hd : shortest_path adj sLoc.node_idx target = some d) :
    ∃ m, multiSourceMin adj (hm.find_targets 97) target = some m ∧ m ≤ d := by
  unfold multiSourceMin
  have hdm : d ∈ (hm.find_targets 97).filterMap
      (fun l => shortest_path adj l.node_idx target) :=
    List.mem_filterMap.mpr ⟨sLoc, hmem, hd⟩
  cases hmin : ((hm.find_targets 97).filterMap
      (fun l => shortest_path adj l.node_idx target)).min? with
  | none =>
    rw [List.min?_eq_none_iff] at hmin
    rw [hmin] at hdm
    cases hdm
  | some m =>
    refine ⟨m, rfl, ?_⟩
    exact (List.le_min?_iff (fun a b c => Nat.le_min) hmin).1 (Nat.le_refl m) d hdm

/-- Witness for C8 on a tiny map whose two cells both hold elevation 97. -/
theorem C8_multi_source_le_witness :
    (⟨0, (0, 0)⟩ : Location) ∈
      (HeightMap.mk [[(⟨0, (0, 0)⟩, 97), (⟨1, (0, 1)⟩, 97)]]).find_targets 97 ∧
    shortest_path [[Edge.mk 1 1], []] (0 : Nat) 1 = some 1 ∧
    (∃ m, multiSourceMin [[Edge.mk 1 1], []]
        ((HeightMap.mk [[(⟨0, (0, 0)⟩, 97), (⟨1, (0, 1)⟩, 97)]]).find_targets 97) 1 =
        some m ∧ m ≤ 1) :=
  ⟨by decide, by decide,
    C8_multi_source_le [[Edge.mk 1 1], []]
      (HeightMap.mk [[(⟨0, (0, 0)⟩, 97), (⟨1, (0, 1)⟩, 97)]])
      ⟨0, (0, 0)⟩ 1 1 (by decide) (by decide)⟩

example :
    read_heightmap [['S', 'b'], ['a', 'E']] =
      .ok (⟨0, (0, 0)⟩, ⟨3, (1, 1)⟩,
        HeightMap.mk [[(⟨0, (0, 0)⟩, 97), (⟨1, (0, 1)⟩, 98)],
          [(⟨2, (1, 0)⟩, 97), (⟨3, (1, 1)⟩, 122)]]) := by rfl

example :
    read_heightmap [['a', '1']] = .error (.FormatError '1') := by rfl

example :
    (HeightMap.to_graph ⟨[[(⟨0, (0, 0)⟩, 5), (⟨1, (0, 1)⟩, 7)],
      [(⟨2, (1, 0)⟩, 3), (⟨3, (1, 1)⟩, 4)]]⟩).isSome = true := by decide

example :
    HeightMap.to_graph ⟨[[(⟨0, (0, 0)⟩, 5)]]⟩ = none := by decide

example :
    HeightMap.to_graph ⟨[[(⟨0, (0, 0)⟩, 5)], [(⟨1, (1, 0)⟩, 5)]]⟩ = none := by decide

example : shortest_path [[⟨1, 1⟩], [⟨0, 1⟩]] 0 1 = some 1 := by decide

example : shortest_path [[⟨1, 1⟩], []] 1 0 = none := by decide

example : shortest_path [[⟨1, 1⟩], [⟨2, 1⟩], []] 0 2 = some 2 := by decide

example : shortest_path [[⟨1, 5⟩, ⟨2, 1⟩], [], [⟨1, 1⟩]] 0 1 = some 2 := by decide

end Day12
